import Mathlib

/-!
Verification of the pydantic-marshmallow bridge core
(`bridge.py`, `field_conversion.py`, `type_mapping.py`, `errors.py`).

The development shallowly embeds the core data model and the load/dump
orchestrator.  Python dicts are association lists with `String` keys, plain
JSON-like values are the inductive `Val`, a Pydantic model is a list of
named field descriptors, and the synthesized Marshmallow schema is a list of
named field descriptors of kind `MaField`.  The two external engines
(Pydantic validation, Marshmallow serialization) are out of the repository;
those parts are modelled from the spec's interface description (section 6)
and are marked as such in their doc comments.
-/

/-- Plain runtime values: the JSON-like data that flows through `load`/`dump`
(dict keys are strings, as in Python dicts used for model input). -/
inductive Val where
  | vnone : Val
  | vint (n : Int) : Val
  | vstr (s : String) : Val
  | vbool (b : Bool) : Val
  | vlist (xs : List Val) : Val
  | vdict (entries : List (String × Val)) : Val

mutual

/-- Boolean structural equality on `Val` (used where the Python source
compares values with `==`). -/
def vbeq : Val → Val → Bool
  | .vnone, .vnone => true
  | .vint a, .vint b => a == b
  | .vstr a, .vstr b => a == b
  | .vbool a, .vbool b => a == b
  | .vlist xs, .vlist ys => vbeqL xs ys
  | .vdict xs, .vdict ys => vbeqD xs ys
  | _, _ => false

/-- Pointwise `vbeq` on value lists. -/
def vbeqL : List Val → List Val → Bool
  | [], [] => true
  | x :: xs, y :: ys => vbeq x y && vbeqL xs ys
  | _, _ => false

/-- Pointwise `vbeq` on string-keyed entry lists. -/
def vbeqD : List (String × Val) → List (String × Val) → Bool
  | [], [] => true
  | (k1, v1) :: xs, (k2, v2) :: ys => k1 == k2 && vbeq v1 v2 && vbeqD xs ys
  | _, _ => false

end

/-- Association-list lookup on string-keyed dicts (models Python
`d.get(k)` / `k in d`). -/
def alookup {α : Type} : List (String × α) → String → Option α
  | [], _ => none
  | (k', v) :: rest, k => if k' = k then some v else alookup rest k

/-- Key list of a dict (models `d.keys()`). -/
def dkeys {α : Type} (d : List (String × α)) : List String := d.map Prod.fst

/-- A Python type annotation, as far as `type_to_marshmallow_field`
inspects it.  Nested models are referenced by name into an environment so
that self-referencing models are expressible.  Scalar annotations that the
embedding does not track (float, datetime, ...) fall under `otherT`, which
the source maps through Marshmallow's `TYPE_MAPPING` with a `Raw` fallback. -/
inductive PType where
  | noneT : PType
  | intT : PType
  | strT : PType
  | boolT : PType
  | literalT (vals : List Val) : PType
  | unionT (args : List PType) : PType
  | enumT (cases : List String) : PType
  | modelT (name : String) : PType
  | listT (arg : Option PType) : PType
  | dictT (args : Option (PType × PType)) : PType
  | setT (arg : Option PType) : PType
  | tupleT (args : List PType) : PType
  | emailStrT : PType
  | anyUrlT : PType
  | ipT : PType
  | otherT : PType

/-- Whether an annotation is `NoneType` (models `a is type(None)`). -/
def PType.isNoneT : PType → Bool
  | .noneT => true
  | _ => false

/-- One declared model field, as exposed by Pydantic's `FieldInfo`:
annotation, static default (`none` models `PydanticUndefined`), default
factory (modelled by the value the factory returns), wire-name alias
(`aliasName`, since `alias` is reserved), and the
`json_schema_extra["error_messages"]` custom-message table consulted by
`format_pydantic_error`. -/
structure PFieldInfo where
  annot : PType
  default : Option Val := none
  defaultFactory : Option Val := none
  aliasName : Option String := none
  errorMessages : List (String × String) := []

/-- A Pydantic model class: declared fields (`model_fields`, in declaration
order) and computed fields (`model_computed_fields`, name and return type). -/
structure PModel where
  fields : List (String × PFieldInfo)
  computed : List (String × PType) := []

/-- The set of model classes in scope, keyed by class name (`modelT`
references resolve here). -/
abbrev Env := List (String × PModel)

/-- Load-default of a synthesized Marshmallow field: unset (`missing`),
a static value, or the default factory itself (stored uninvoked, modelled
by the value it produces). -/
inductive DefaultOpt where
  | noDefault : DefaultOpt
  | value (v : Val) : DefaultOpt
  | factory (v : Val) : DefaultOpt

/-- The attribute bag of a Marshmallow field instance, as far as
`convert_pydantic_field` configures it: `required`, `allow_none`,
`load_default`, `dump_default`, `data_key`, `dump_only`. -/
structure FieldAttrs where
  required : Bool := false
  allowNone : Bool := false
  loadDefault : DefaultOpt := .noDefault
  dumpDefault : Option Val := none
  dataKey : Option String := none
  dumpOnly : Bool := false

/-- A synthesized Marshmallow field: its kind (`Raw`, `String`, `Integer`,
`Boolean`, `Email`, `URL`, `IP`, `Enum`, `List`, `Dict`, `Tuple`,
`Nested`) together with its attribute bag.  `nestedF` carries the nested
schema's full field set, as `ma_fields.Nested(nested_schema)` does. -/
inductive MaField where
  | raw (a : FieldAttrs) : MaField
  | strF (a : FieldAttrs) : MaField
  | intF (a : FieldAttrs) : MaField
  | boolF (a : FieldAttrs) : MaField
  | emailF (a : FieldAttrs) : MaField
  | urlF (a : FieldAttrs) : MaField
  | ipF (a : FieldAttrs) : MaField
  | enumF (cases : List String) (a : FieldAttrs) : MaField
  | listF (inner : MaField) (a : FieldAttrs) : MaField
  | dictF (keyF valF : MaField) (a : FieldAttrs) : MaField
  | tupleF (elems : List MaField) (a : FieldAttrs) : MaField
  | nestedF (fields : List (String × MaField)) (a : FieldAttrs) : MaField

/-- Read a field's attribute bag. -/
def MaField.attrs : MaField → FieldAttrs
  | .raw a | .strF a | .intF a | .boolF a | .emailF a | .urlF a | .ipF a => a
  | .enumF _ a => a
  | .listF _ a => a
  | .dictF _ _ a => a
  | .tupleF _ a => a
  | .nestedF _ a => a

/-- Update a field's attribute bag in place, keeping its kind (models
Python attribute assignment like `field.allow_none = True`). -/
def MaField.mapAttrs (g : FieldAttrs → FieldAttrs) : MaField → MaField
  | .raw a => .raw (g a)
  | .strF a => .strF (g a)
  | .intF a => .intF (g a)
  | .boolF a => .boolF (g a)
  | .emailF a => .emailF (g a)
  | .urlF a => .urlF (g a)
  | .ipF a => .ipF (g a)
  | .enumF c a => .enumF c (g a)
  | .listF i a => .listF i (g a)
  | .dictF k v a => .dictF k v (g a)
  | .tupleF e a => .tupleF e (g a)
  | .nestedF f a => .nestedF f (g a)

/-- Number of environment models not currently on the
`_processing_models` recursion-guard stack; the termination measure of
schema synthesis. -/
def freeModels (env : Env) (processing : List String) : Nat :=
  ((env.map Prod.fst).toFinset \ processing.toFinset).card

theorem alookup_mem {α : Type} {l : List (String × α)} {k : String} {v : α}
    (h : alookup l k = some v) : (k, v) ∈ l := by
  induction l with
  | nil => simp [alookup] at h
  | cons p rest ih =>
    obtain ⟨k', v'⟩ := p
    by_cases hk : k' = k
    · subst hk
      simp [alookup] at h
      subst h
      exact List.mem_cons_self _ _
    · simp [alookup, hk] at h
      exact List.mem_cons_of_mem _ (ih h)

theorem freeModels_decreases {env : Env} {processing : List String}
    {n : String} {m : PModel}
    (hl : alookup env n = some m) (hp : n ∉ processing) :
    freeModels env (n :: processing) < freeModels env processing := by
  have hn : n ∈ (env.map Prod.fst).toFinset := by
    simp only [List.mem_toFinset, List.mem_map]
    exact ⟨(n, m), alookup_mem hl, rfl⟩
  apply Finset.card_lt_card
  rw [Finset.ssubset_def]
  refine ⟨?_, ?_⟩
  · intro x hx
    simp only [Finset.mem_sdiff, List.toFinset_cons, Finset.mem_insert,
      List.mem_toFinset] at hx ⊢
    exact ⟨hx.1, fun h => hx.2 (Or.inr h)⟩
  · intro hsub
    have h2 := hsub (by
      simp only [Finset.mem_sdiff, List.mem_toFinset]
      exact ⟨by simpa using hn, hp⟩)
    simp [Finset.mem_sdiff, List.toFinset_cons, Finset.mem_insert] at h2

/-- Attribute configuration performed by `convert_pydantic_field` after the
type mapping: static default (sets both defaults, clears `required`),
else default factory (sets `load_default` to the factory, clears
`required`), else `required := true`; then alias to `data_key`; then
`allow_none` when `None` is among the union branches of the annotation
(the source's dead first disjunct `origin is type(None)` cannot trigger,
since `get_origin(NoneType)` is `None`). -/
def applyFieldInfoAttrs (fi : PFieldInfo) (f0 : MaField) : MaField :=
  let f1 := match fi.default with
    | some dv => f0.mapAttrs (fun a =>
        { a with loadDefault := .value dv, dumpDefault := some dv, required := false })
    | none => match fi.defaultFactory with
      | some fv => f0.mapAttrs (fun a =>
          { a with loadDefault := .factory fv, required := false })
      | none => f0.mapAttrs (fun a => { a with required := true })
  let f2 := match fi.aliasName with
    | some al => f1.mapAttrs (fun a => { a with dataKey := some al })
    | none => f1
  let isOpt := match fi.annot with
    | .unionT args => args.any PType.isNoneT
    | _ => false
  if isOpt then f2.mapAttrs (fun a => { a with allowNone := true }) else f2

/-- Mirrors `type_to_marshmallow_field` in `type_mapping.py`, with the
module-level `_processing_models` recursion guard passed explicitly.  The
nested-model branch performs the `PydanticSchema.from_model` synthesis of
the nested schema (regular fields via `convert_pydantic_field`, computed
fields via `convert_computed_field`), which is what the source's
`ma_fields.Nested(PydanticSchema.from_model(type_hint))` amounts to.  A
dangling model reference (impossible in Python, where the annotation is the
class itself) degrades to `Raw`. -/
def type_to_marshmallow_field (env : Env) (processing : List String) :
    PType → MaField
  | .noneT => .raw { allowNone := true }
  | .literalT _ => .raw {}
  | .unionT args =>
    match h : args.filter (fun a => !a.isNoneT) with
    | [t1] => (type_to_marshmallow_field env processing t1).mapAttrs
        (fun a => { a with allowNone := true })
    | _ => .raw { allowNone := true }
  | .enumT cases => .enumF cases {}
  | .modelT n =>
    if hp : n ∈ processing then .raw {}
    else
      match hl : alookup env n with
      | some m =>
        .nestedF
          ((m.fields.map (fun p =>
              (p.1, applyFieldInfoAttrs p.2
                (type_to_marshmallow_field env (n :: processing) p.2.annot)))) ++
           (m.computed.map (fun p =>
              (p.1, (type_to_marshmallow_field env (n :: processing) p.2).mapAttrs
                (fun a => { a with dumpOnly := true })))))
          {}
      | none => .raw {}
  | .listT arg =>
    match arg with
    | some t1 => .listF (type_to_marshmallow_field env processing t1) {}
    | none => .listF (.raw {}) {}
  | .dictT args =>
    match args with
    | some (kt, vt) =>
      .dictF (type_to_marshmallow_field env processing kt)
        (type_to_marshmallow_field env processing vt) {}
    | none => .dictF (.strF {}) (.raw {}) {}
  | .setT arg =>
    match arg with
    | some t1 => .listF (type_to_marshmallow_field env processing t1) {}
    | none => .listF (.raw {}) {}
  | .tupleT args =>
    match args with
    | [] => .listF (.raw {}) {}
    | a :: rest => .tupleF ((a :: rest).attach.map
        (fun x => type_to_marshmallow_field env processing x.1)) {}
  | .emailStrT => .emailF {}
  | .anyUrlT => .urlF {}
  | .ipT => .ipF {}
  | .intT => .intF {}
  | .strT => .strF {}
  | .boolT => .boolF {}
  | .otherT => .raw {}
termination_by t => (freeModels env processing, sizeOf t)
decreasing_by
  all_goals simp_wf
  · apply Prod.Lex.right
    have ht : t1 ∈ args.filter (fun a => !a.isNoneT) := by
      rw [h]; exact List.mem_singleton_self _
    have := List.sizeOf_lt_of_mem (List.mem_of_mem_filter ht)
    omega
  · exact Prod.Lex.left _ _ (freeModels_decreases hl hp)
  · exact Prod.Lex.left _ _ (freeModels_decreases hl hp)
  · apply Prod.Lex.right; omega
  · apply Prod.Lex.right; omega
  · apply Prod.Lex.right; omega
  · apply Prod.Lex.right; omega
  · apply Prod.Lex.right
    have := List.sizeOf_lt_of_mem x.2
    simp only [List.cons.sizeOf_spec] at this
    omega

/-- Mirrors `convert_pydantic_field` in `field_conversion.py`. -/
def convert_pydantic_field (env : Env) (fi : PFieldInfo) : MaField :=
  applyFieldInfoAttrs fi (type_to_marshmallow_field env [] fi.annot)

/-- Mirrors `convert_computed_field` in `field_conversion.py`: map the
return type and mark the result `dump_only`. -/
def convert_computed_field (env : Env) (returnType : PType) : MaField :=
  (type_to_marshmallow_field env [] returnType).mapAttrs
    (fun a => { a with dumpOnly := true })

/-- Mirrors `convert_model_fields` in `field_conversion.py` (`incl` and
`excl` stand for the source's `include` and `exclude` parameters, which
are reserved words here). -/
def convert_model_fields (env : Env) (model : PModel)
    (incl : Option (List String)) (excl : Option (List String))
    (includeComputed : Bool) : List (String × MaField) :=
  let excludeSet := excl.getD []
  let regular := model.fields.filterMap (fun p =>
    if p.1 ∈ excludeSet then none
    else match incl with
      | some inc =>
        if p.1 ∈ inc then some (p.1, convert_pydantic_field env p.2) else none
      | none => some (p.1, convert_pydantic_field env p.2))
  let comp := if includeComputed then
      model.computed.filterMap (fun p =>
        if p.1 ∈ excludeSet then none
        else match incl with
          | some inc =>
            if p.1 ∈ inc then some (p.1, convert_computed_field env p.2) else none
          | none => some (p.1, convert_computed_field env p.2))
    else []
  regular ++ comp

/-- Mirrors `_get_model_field_names_with_aliases` in `bridge.py`: declared
field names plus declared aliases, as a list with set-membership semantics
(the per-model memoization cache is pure and not modelled). -/
def get_model_field_names_with_aliases (model : PModel) : List String :=
  model.fields.map Prod.fst ++ model.fields.filterMap (fun p => p.2.aliasName)

/-- One item of Engine A's structured error list: location path, message,
error type (spec section 6: `{location: tuple, message: str, type: str}`);
path segments already stringified as the source does with `str(part)`. -/
structure EngineError where
  loc : List String
  msg : String
  etype : String

/-- Mirrors `format_pydantic_error` in `errors.py`: substitute a custom
message from the field's `error_messages` table (keyed by error type, with
a `"default"` fallback) when one is declared, else keep the engine's
message. -/
def format_pydantic_error (model? : Option PModel) (e : EngineError) : String :=
  match model?, e.loc with
  | some m, f :: _ =>
    match alookup m.fields f with
    | some fi =>
      match alookup fi.errorMessages e.etype with
      | some custom => custom
      | none =>
        match alookup fi.errorMessages "default" with
        | some dmsg => dmsg
        | none => e.msg
    | none => e.msg
  | _, _ => e.msg

/-- Mirrors `build_error_path` in `errors.py`: a single segment stands
alone, longer paths are dot-joined. -/
def build_error_path (loc : List String) : String :=
  match loc with
  | [p] => p
  | _ => String.intercalate "." loc

/-- The bridge's validation error (`BridgeValidationError`, with
`MarshmallowValidationError` as the `validData = []` special case):
field-to-messages mapping, original raw input, and the
successfully-validated subset. -/
structure BridgeError where
  messages : List (String × List String)
  data : Val := .vnone
  validData : List (String × Val) := []

/-- Append a message under a key of a field-to-messages mapping, keeping
Python-dict insertion order (models `errors.setdefault(k, []).append(m)`
style accumulation). -/
def addMsg (errs : List (String × List String)) (k : String) (msg : String) :
    List (String × List String) :=
  match errs with
  | [] => [(k, [msg])]
  | (k', ms) :: rest =>
    if k' = k then (k', ms ++ [msg]) :: rest else (k', ms) :: addMsg rest k msg

/-- Mirrors `convert_pydantic_errors` in `errors.py`: accumulate one
message per error item under its dotted path (`_schema` for an empty
path), track failed top-level fields, then build `valid_data` from the
original input's declared, non-failing keys. -/
def convert_pydantic_errors (errors : List EngineError) (model? : Option PModel)
    (originalData : List (String × Val)) : BridgeError :=
  let step := errors.foldl (fun (acc : List (String × List String) × List String) e =>
    let msg := format_pydantic_error model? e
    match e.loc with
    | [] => (addMsg acc.1 "_schema" msg, acc.2)
    | f :: _ => (addMsg acc.1 (build_error_path e.loc) msg, acc.2 ++ [f]))
    ([], [])
  let validData := match model? with
    | some m =>
      if originalData.isEmpty then []
      else originalData.filter
        (fun p => p.1 ∉ step.2 ∧ (alookup m.fields p.1).isSome)
    | none => []
  { messages := step.1, data := .vdict originalData, validData := validData }

/-- Whether an annotation is `str` (used by the dict-key grammar of the
round-trip development). -/
def PType.isStrT : PType → Bool
  | .strT => true
  | _ => false

/-- Modelled from the spec: Engine A's python-mode validation of one value
against one annotation ("validate(raw_dict) → typed_instance |
structured_errors", spec section 6; the engine itself is an external
collaborator, not part of this repository).  Coercion is strict on the
embedded value grammar; union branches are tried left to right; nested
models validate by alias when one is declared, ignore undeclared keys, and
fill declared defaults for absent fields without re-validating them;
constraint checking on special string kinds is opaque to the bridge and
abstracted away. -/
def pydCoerce (env : Env) : PType → Val → Option Val
  | .noneT, .vnone => some .vnone
  | .intT, .vint n => some (.vint n)
  | .strT, .vstr s => some (.vstr s)
  | .boolT, .vbool b => some (.vbool b)
  | .literalT vals, v => if vals.any (vbeq v) then some v else none
  | .unionT args, v => args.attach.foldl (fun acc x => acc <|> pydCoerce env x.1 v) none
  | .enumT cases, .vstr s => if cases.contains s then some (.vstr s) else none
  | .modelT n, .vdict d =>
    match alookup env n with
    | some m =>
      (m.fields.mapM (fun (p : String × PFieldInfo) =>
        let key := p.2.aliasName.getD p.1
        match halo : alookup d key with
        | some v1 => (pydCoerce env p.2.annot v1).map (fun v2 => (p.1, v2))
        | none =>
          match p.2.default with
          | some dv => some (p.1, dv)
          | none =>
            match p.2.defaultFactory with
            | some fv => some (p.1, fv)
            | none => none)).map Val.vdict
    | none => none
  | .listT arg, .vlist xs =>
    (xs.attach.mapM (fun x => pydCoerce env (arg.getD .otherT) x.1)).map Val.vlist
  | .dictT args, .vdict d =>
    match args with
    | none => some (.vdict d)
    | some (kt, vt) =>
      (d.attach.mapM (fun x =>
        (pydCoerce env kt (.vstr x.1.1)).bind (fun k1 =>
          match k1 with
          | .vstr ks => (pydCoerce env vt x.1.2).map (fun v1 => (ks, v1))
          | _ => none))).map Val.vdict
  | .setT arg, .vlist xs =>
    (xs.attach.mapM (fun x => pydCoerce env (arg.getD .otherT) x.1)).map Val.vlist
  | .tupleT args, .vlist xs =>
    match args with
    | [] => some (.vlist xs)
    | a :: rest =>
      if (a :: rest).length = xs.length then
        (((a :: rest).zip xs).attach.mapM (fun x => pydCoerce env x.1.1 x.1.2)).map Val.vlist
      else none
  | .emailStrT, .vstr s => some (.vstr s)
  | .anyUrlT, .vstr s => some (.vstr s)
  | .ipT, .vstr s => some (.vstr s)
  | .otherT, v => some v
  | _, _ => none
termination_by t v => (sizeOf v, sizeOf t)
decreasing_by
  all_goals simp_wf
  · apply Prod.Lex.right
    have := List.sizeOf_lt_of_mem x.2
    omega
  · apply Prod.Lex.left
    have h1 := List.sizeOf_lt_of_mem (alookup_mem halo)
    simp only [Prod.mk.sizeOf_spec] at h1
    omega
  · apply Prod.Lex.left
    have := List.sizeOf_lt_of_mem x.2
    omega
  · apply Prod.Lex.left
    obtain ⟨⟨a, b⟩, hx⟩ := x
    have h1 := List.sizeOf_lt_of_mem hx
    simp only [Prod.mk.sizeOf_spec] at h1
    simp only []
    omega
  · apply Prod.Lex.left
    obtain ⟨⟨a, b⟩, hx⟩ := x
    have h1 := List.sizeOf_lt_of_mem hx
    simp only [Prod.mk.sizeOf_spec] at h1
    simp only []
    omega
  · apply Prod.Lex.left
    have := List.sizeOf_lt_of_mem x.2
    omega
  · apply Prod.Lex.left
    obtain ⟨⟨a1, b1⟩, hx⟩ := x
    have := List.sizeOf_lt_of_mem (List.of_mem_zip hx).2
    simp only []
    omega

/-- Modelled from the spec: the plain (`model_dump`-form) well-typed values
over which the round-trip property (spec section 8) quantifies — concrete
scalars, optionals, lists, sets (spec section 4.1 item 8; their
`model_dump` shape is an element list, as for lists), string-keyed dicts,
tuples and nested models supported by the Type Mapper.  Nested-model
values are name-keyed entry lists aligned with the model's declared field
order, exactly the shape `model_dump(by_alias=False)` produces.
Annotations outside this grammar (enums, true multi-branch unions) are
not covered. -/
def wt (env : Env) : PType → Val → Bool
  | .noneT, .vnone => true
  | .intT, .vint _ => true
  | .strT, .vstr _ => true
  | .boolT, .vbool _ => true
  | .literalT vals, v => vals.any (vbeq v)
  | .unionT [t1, .noneT], .vnone => !t1.isNoneT
  | .unionT [t1, .noneT], v => !t1.isNoneT && wt env t1 v
  | .modelT n, .vdict d =>
    match alookup env n with
    | some m =>
      (m.fields.length == d.length) &&
        ((m.fields.zip d).attach.all (fun x =>
          (x.1.1.1 == x.1.2.1) && wt env x.1.1.2.annot x.1.2.2))
    | none => false
  | .listT (some t1), .vlist xs => xs.attach.all (fun x => wt env t1 x.1)
  | .listT none, .vlist _ => true
  | .dictT none, .vdict _ => true
  | .dictT (some (kt, vt)), .vdict d =>
    kt.isStrT && d.attach.all (fun x => wt env vt x.1.2)
  | .tupleT [], .vlist _ => true
  | .tupleT (a :: rest), .vlist xs =>
    ((a :: rest).length == xs.length) &&
      (((a :: rest).zip xs).attach.all (fun x => wt env x.1.1 x.1.2))
  | .emailStrT, .vstr _ => true
  | .anyUrlT, .vstr _ => true
  | .ipT, .vstr _ => true
  | .otherT, _ => true
  | .setT (some t1), .vlist xs => xs.attach.all (fun x => wt env t1 x.1)
  | .setT none, .vlist _ => true
  | _, _ => false
termination_by t v => (sizeOf v, sizeOf t)
decreasing_by
  all_goals simp_wf
  · apply Prod.Lex.right
    omega
  · apply Prod.Lex.left
    obtain ⟨⟨a1, b1⟩, hx⟩ := x
    have := List.sizeOf_lt_of_mem (List.of_mem_zip hx).2
    obtain ⟨b2, b3⟩ := b1
    simp only [Prod.mk.sizeOf_spec] at this
    simp only []
    omega
  · apply Prod.Lex.left
    have := List.sizeOf_lt_of_mem x.2
    omega
  · apply Prod.Lex.left
    obtain ⟨⟨a1, b1⟩, hx⟩ := x
    have := List.sizeOf_lt_of_mem hx
    simp only [Prod.mk.sizeOf_spec] at this
    simp only []
    omega
  · apply Prod.Lex.left
    obtain ⟨⟨a1, b1⟩, hx⟩ := x
    have := List.sizeOf_lt_of_mem (List.of_mem_zip hx).2
    simp only []
    omega
  · apply Prod.Lex.left
    have := List.sizeOf_lt_of_mem x.2
    omega

/-- The wire key of a schema field: `data_key` when set, else the
attribute name (how Marshmallow names output keys on dump). -/
def dataKeyOr (name : String) (f : MaField) : String :=
  (f.attrs.dataKey).getD name

/-- Modelled from the spec: Engine B's native per-field serialization
(spec sections 4.7 and 6; Marshmallow itself is an external collaborator).
`None` serializes to `None`; scalar kinds are the identity on already
plain values; containers serialize recursively; `Nested` re-serializes a
nested mapping through the nested schema's fields, naming output keys by
`data_key`; values no serializer applies to pass through unchanged. -/
def maSerialize : MaField → Val → Val
  | _, .vnone => .vnone
  | .listF inner _, .vlist xs => .vlist (xs.attach.map (fun x => maSerialize inner x.1))
  | .dictF _ valF _, .vdict d =>
    .vdict (d.attach.map (fun x => (x.1.1, maSerialize valF x.1.2)))
  | .tupleF elems _, .vlist xs =>
    .vlist ((elems.zip xs).attach.map (fun x => maSerialize x.1.1 x.1.2))
  | .nestedF flds _, .vdict d =>
    .vdict (flds.attach.map (fun x =>
      (dataKeyOr x.1.1 x.1.2, maSerialize x.1.2 ((alookup d x.1.1).getD .vnone))))
  | _, v => v
termination_by f _ => sizeOf f
decreasing_by
  all_goals simp_wf
  · omega
  · omega
  · obtain ⟨⟨a1, b1⟩, hx⟩ := x
    have := List.sizeOf_lt_of_mem (List.of_mem_zip hx).1
    simp only []
    omega
  · obtain ⟨⟨a1, b1⟩, hx⟩ := x
    have := List.sizeOf_lt_of_mem hx
    simp only [Prod.mk.sizeOf_spec] at this
    simp only []
    omega

/-- Marshmallow's dump of a plain mapping through a schema's field set
(one output entry per field, keyed by `data_key` or name): the body of
`super().dump(obj)` as `_dump_single` invokes it on the
`model_dump` result.  Modelled from the spec (section 4.7 step 4). -/
def maDumpFields (flds : List (String × MaField)) (d : List (String × Val)) :
    List (String × Val) :=
  flds.map (fun p => (dataKeyOr p.1 p.2, maSerialize p.2 ((alookup d p.1).getD .vnone)))

/-- Modelled from the spec: Engine A's `model_validate` on an input dict
(section 6), collecting one structured error per failing field and
otherwise producing the typed instance in its `model_dump(by_alias=False)`
shape: every declared field name mapped, in declaration order, to its
validated value (input looked up by wire key — alias when declared —
declared defaults and factory results filling absent fields).  Error
locations carry the wire key. -/
def validateModel (env : Env) (m : PModel) (d : List (String × Val)) :
    Except (List EngineError) (List (String × Val)) :=
  let step := m.fields.foldl (fun (acc : List (String × Val) × List EngineError) p =>
    let key := p.2.aliasName.getD p.1
    match alookup d key with
    | some v =>
      match pydCoerce env p.2.annot v with
      | some v1 => (acc.1 ++ [(p.1, v1)], acc.2)
      | none => (acc.1, acc.2 ++ [⟨[key], "Invalid value", "value_error"⟩])
    | none =>
      match p.2.default with
      | some dv => (acc.1 ++ [(p.1, dv)], acc.2)
      | none =>
        match p.2.defaultFactory with
        | some fv => (acc.1 ++ [(p.1, fv)], acc.2)
        | none => (acc.1, acc.2 ++ [⟨[key], "Field required", "missing"⟩]))
    ([], [])
  if step.2.isEmpty then .ok step.1 else .error step.2

/-- A `partial` argument as the public `load` signature accepts it:
`True`, a list, a tuple, or a set of field names (`None`/`False` select
the non-partial path upstream and are represented by the absence of a
`PartialArg`). -/
inductive PartialArg where
  | ptrue : PartialArg
  | plist (l : List String) : PartialArg
  | ptup (l : List String) : PartialArg
  | pset (l : List String) : PartialArg
deriving DecidableEq

/-- Python truthiness of a `partial` argument (`if partial:`): `True` is
truthy, a collection is truthy when non-empty. -/
def PartialArg.truthy : PartialArg → Bool
  | .ptrue => true
  | .plist l | .ptup l | .pset l => !l.isEmpty

/-- The `partial_fields` set computed by `_validate_partial`: all field
names for `True`, the given names for a list or a tuple, and — because the
source tests `isinstance(partial, (list, tuple))` only — the empty set for
a set argument. -/
def partialFields (m : PModel) : PartialArg → List String
  | .ptrue => m.fields.map Prod.fst
  | .plist l => l
  | .ptup l => l
  | .pset _ => []

/-- Mirrors `PydanticSchema._validate_partial` in `bridge.py`, with Engine
A's `model_validate` supplied as the `engine` argument: record a
"Missing data for required field." error for every declared field absent
from the data, outside the partial set, and without a default or factory;
raise those immediately (with `valid_data` = the provided, declared,
non-erroring entries) before the engine runs; otherwise complete the data
with declared defaults and factory results, run the engine on the
completed mapping, return the provided entries' validated values on
success, and on failure keep only errors whose top-level field was
provided (`valid_data` = provided, declared, non-failing entries). -/
def validatePartial (m : PModel)
    (engine : List (String × Val) → Except (List EngineError) (List (String × Val)))
    (d : List (String × Val)) (parg : PartialArg)
    (originalData : List (String × Val)) : Except BridgeError (List (String × Val)) :=
  let pf := partialFields m parg
  let missingErrors : List (String × List String) := m.fields.filterMap (fun p =>
    if (alookup d p.1).isNone ∧ p.1 ∉ pf ∧ p.2.default.isNone ∧ p.2.defaultFactory.isNone
    then some (p.1, ["Missing data for required field."]) else none)
  if missingErrors ≠ [] then
    .error { messages := missingErrors,
             data := .vdict (if originalData.isEmpty then d else originalData),
             validData := d.filter (fun p =>
               p.1 ∉ dkeys missingErrors ∧ (alookup m.fields p.1).isSome) }
  else
    let validationData := m.fields.filterMap (fun p =>
      match alookup d p.1 with
      | some v => some (p.1, v)
      | none =>
        match p.2.default with
        | some dv => some (p.1, dv)
        | none =>
          match p.2.defaultFactory with
          | some fv => some (p.1, fv)
          | none => none)
    match engine validationData with
    | .ok inst =>
      .ok (d.filterMap (fun p =>
        if (alookup m.fields p.1).isSome then
          (alookup inst p.1).map (fun v => (p.1, v))
        else none))
    | .error es =>
      let step := es.foldl (fun (acc : List (String × List String) × List String) e =>
        match e.loc with
        | [] => acc
        | f :: _ =>
          if (alookup d f).isSome then
            (addMsg acc.1 f (format_pydantic_error (some m) e), acc.2 ++ [f])
          else (acc.1, acc.2 ++ [f])) ([], [])
      if step.1 ≠ [] then
        .error { messages := step.1,
                 data := .vdict (if originalData.isEmpty then d else originalData),
                 validData := d.filter (fun p =>
                   p.1 ∉ step.2 ∧ (alookup m.fields p.1).isSome) }
      else
        .ok (d.filter (fun p => (alookup m.fields p.1).isSome))

/-- The unknown-field policy tokens (`RAISE` / `EXCLUDE` / `INCLUDE`). -/
inductive UnknownPolicy where
  | uraise : UnknownPolicy
  | uexclude : UnknownPolicy
  | uinclude : UnknownPolicy
deriving DecidableEq

/-- Result of one loaded item: a typed instance in `model_dump` shape, or
a plain mapping (`return_instance=False` or unbound-model loads).  The
`_fields_set` bookkeeping of the partial `model_construct` call is not
observable to any claim and is not carried. -/
inductive LoadResult where
  | instR (fields : List (String × Val)) : LoadResult
  | dictR (d : List (String × Val)) : LoadResult

/-- A bound schema instance as `_do_load` consults it: bound model,
resolved unknown policy, partial mode, pre/post-load hooks in registration
order, the unified field-level and schema-level custom-validator
registries (the source merges Marshmallow's native hook registry and the
bridge's legacy registry into the same accumulator; a schema validator
carries its `skip_on_field_errors` flag), and `return_instance`. -/
structure SchemaCfg where
  model : Option PModel
  unknown : UnknownPolicy := .uraise
  partialMode : Option PartialArg := none
  preLoad : List (List (String × Val) → List (String × Val)) := []
  postLoad : List (LoadResult → LoadResult) := []
  fieldValidators : List (String × (Val → List String)) := []
  schemaValidators : List ((List (String × Val) → List (String × List String)) × Bool) := []
  returnInstance : Bool := true

/-- Steps 4-7 of `_do_load`: run the field validators over the validated
mapping (only for fields present in it), then the schema validators
(skipped when `skip_on_field_errors` is set and field errors exist), raise
the combined accumulator as one `MarshmallowValidationError` if non-empty;
then shape the result — the retained Engine A instance for the
non-partial `return_instance` path, a `model_construct` mapping (provided
values plus defaults, factory results, or `None`) for the partial path, a
plain mapping otherwise — and run the post-load hooks over it. -/
def run_validators (cfg : SchemaCfg) (validatedData : List (String × Val)) :
    List (String × List String) :=
  let fieldErrs := cfg.fieldValidators.foldl (fun acc fv =>
    match alookup validatedData fv.1 with
    | some v => (fv.2 v).foldl (fun a msg => addMsg a fv.1 msg) acc
    | none => acc) []
  let hasFieldErrors := !fieldErrs.isEmpty
  cfg.schemaValidators.foldl (fun acc sv =>
    if sv.2 ∧ hasFieldErrors then acc
    else (sv.1 validatedData).foldl
      (fun a km => km.2.foldl (fun a2 msg => addMsg a2 km.1 msg) a) acc) fieldErrs

def post_validate_steps (cfg : SchemaCfg) (partialTruthy : Bool)
    (validatedData : List (String × Val))
    (instance? : Option (List (String × Val))) : Except BridgeError LoadResult :=
  let allErrs := run_validators cfg validatedData
  if allErrs.isEmpty then
    let shaped : LoadResult :=
      match cfg.model, cfg.returnInstance with
      | some m, true =>
        if !partialTruthy then
          match instance? with
          | some inst => .instR inst
          | none => .dictR validatedData
        else
          .instR (m.fields.map (fun p =>
            (p.1, match alookup validatedData p.1 with
              | some v => v
              | none =>
                match p.2.default with
                | some dv => dv
                | none =>
                  match p.2.defaultFactory with
                  | some fv => fv
                  | none => .vnone)))
      | _, _ => .dictR validatedData
    .ok (cfg.postLoad.foldl (fun r f => f r) shaped)
  else .error { messages := allErrs }

/-- Mirrors the `many=False` path of `PydanticSchema._do_load` with the
Engine A `model_validate` callable passed explicitly: pre-load hooks, the
unknown-field policy over the cached declared-names-plus-aliases set
(`raise` raises one "Unknown field." message per unknown key, `exclude`
drops unknown keys before validation, `include` merges them back into the
validated mapping), Engine A validation (full — errors translated by
`convert_pydantic_errors` with the raw input as `original_data or data` —
or the partial sub-procedure), then `post_validate_steps`.  Without a
bound model the unknown step and the engine are skipped and the processed
mapping flows on unchanged.  The `skip_model_dump` flag is a pure
optimization (the skipped mapping is never read) and is not modelled. -/
def do_load_single (cfg : SchemaCfg)
    (engine : PModel → List (String × Val) → Except (List EngineError) (List (String × Val)))
    (data : List (String × Val)) : Except BridgeError LoadResult :=
  let partialTruthy := match cfg.partialMode with
    | some p => p.truthy
    | none => false
  let processed := cfg.preLoad.foldl (fun d f => f d) data
  match cfg.model with
  | none => post_validate_steps cfg partialTruthy processed none
  | some m =>
    let fns := get_model_field_names_with_aliases m
    let unkn := (dkeys processed).filter (fun k => k ∉ fns)
    if cfg.unknown = .uraise ∧ unkn ≠ [] then
      .error { messages := unkn.map (fun k => (k, ["Unknown field."])),
               data := .vdict data }
    else
      let processed2 := if cfg.unknown = .uexclude then
          processed.filter (fun p => p.1 ∈ fns)
        else processed
      let engineStep : Except BridgeError
          (List (String × Val) × Option (List (String × Val))) :=
        match cfg.partialMode with
        | some p =>
          if p.truthy then
            (validatePartial m (engine m) processed2 p data).map (fun vd => (vd, none))
          else
            match engine m processed2 with
            | .ok inst => .ok (inst, some inst)
            | .error es =>
              .error (convert_pydantic_errors es (some m)
                (if data.isEmpty then processed2 else data))
        | none =>
          match engine m processed2 with
          | .ok inst => .ok (inst, some inst)
          | .error es =>
            .error (convert_pydantic_errors es (some m)
              (if data.isEmpty then processed2 else data))
      match engineStep with
      | .error e => .error e
      | .ok (validatedData, instance?) =>
        let validated2 := if cfg.unknown = .uinclude then
            validatedData ++ processed2.filter (fun p => p.1 ∉ fns)
          else validatedData
        post_validate_steps cfg partialTruthy validated2 instance?

/-- Mirrors the `many=True` branch of `PydanticSchema._do_load`: a
non-list input raises the schema-level "Expected a list." error; list
items load one by one with `many=False` and the first failing item's
exception propagates unchanged. -/
def do_load_many (cfg : SchemaCfg)
    (engine : PModel → List (String × Val) → Except (List EngineError) (List (String × Val)))
    (items : Option (List (List (String × Val)))) :
    Except BridgeError (List LoadResult) :=
  match items with
  | none => .error { messages := [("_schema", ["Expected a list."])] }
  | some xs => xs.mapM (do_load_single cfg engine)

/-- Mirrors `PydanticSchema._dump_single` for a typed-instance input, with
the pieces owned by the external engines spelled out: `fieldsSet` is the
instance's `model_fields_set`, `computedVals` the values `getattr` reads
from the computed properties (property bodies are opaque to the bridge),
and `model_dump(by_alias=False)` is the identity on the instance's plain
field mapping.  Exclusion sets: `exclude_unset` (declared fields not
explicitly set), `exclude_defaults` (value equal to the declared default
or to the factory's result), `exclude_none` (value is `None`; also
tracks `None`-valued computed fields for removal).  Marshmallow then dumps
the mapping through the schema fields, excluded names are filtered from
the result, and the surviving computed values are merged in. -/
def dump_single (schemaFields : List (String × MaField)) (m : PModel)
    (inst : List (String × Val)) (fieldsSet : List String)
    (computedVals : List (String × Val))
    (includeComputed excludeUnset excludeDefaults excludeNone : Bool) :
    List (String × Val) :=
  let ex1 : List String := if excludeUnset then
      (m.fields.map Prod.fst).filter (fun f => f ∉ fieldsSet) else []
  let ex2 : List String := if excludeDefaults then
      m.fields.filterMap (fun p =>
        match alookup inst p.1 with
        | some v =>
          match p.2.default with
          | some dv => if vbeq v dv then some p.1 else none
          | none =>
            match p.2.defaultFactory with
            | some fv => if vbeq v fv then some p.1 else none
            | none => none
        | none => none) else []
  let ex3 : List String := if excludeNone then
      m.fields.filterMap (fun p =>
        match alookup inst p.1 with
        | some .vnone => some p.1
        | _ => none) else []
  let cstep : List String × List (String × Val) :=
    if includeComputed then
      computedVals.foldl (fun acc p =>
        match excludeNone, p.2 with
        | true, .vnone => (acc.1 ++ [p.1], acc.2)
        | _, _ => (acc.1, acc.2 ++ [p])) ([], [])
    else ([], [])
  let excl := ex1 ++ ex2 ++ ex3 ++ cstep.1
  let dumped := maDumpFields schemaFields inst
  let filtered := dumped.filter (fun p => p.1 ∉ excl)
  filtered ++ cstep.2

/-- Association lookup over an arbitrary decidable key type (used by the
schema-class cache, whose keys are `(model, options-tuple)` pairs). -/
def klookup {κ α : Type} [DecidableEq κ] : List (κ × α) → κ → Option α
  | [], _ => none
  | (k', v) :: rest, k => if k' = k then some v else klookup rest k

/-- A filter-option value in `from_model`'s `**meta_options`: a tuple of
names (hashable) or a list of names (unhashable in Python). -/
inductive OptVal where
  | tup (names : List String) : OptVal
  | lst (names : List String) : OptVal
deriving DecidableEq

/-- Whether the option value is hashable (a list is not). -/
def OptVal.hashable : OptVal → Bool
  | .tup _ => true
  | .lst _ => false

/-- The names an option value carries, regardless of representation. -/
def OptVal.names : OptVal → List String
  | .tup l => l
  | .lst l => l

/-- The cache key's option component: `tuple(sorted(meta_options.items()))`.
Keyword-argument names are distinct, so Python's tuple ordering is decided
by the first components alone. -/
def sortOpts (opts : List (String × OptVal)) : List (String × OptVal) :=
  opts.mergeSort (fun a b => decide (a.1 ≤ b.1))

/-- The module-level `_schema_class_cache` together with an allocation
counter: each newly created schema class gets a fresh id, so Python object
identity (`is`) is id equality. -/
structure FactoryState where
  cache : List ((String × List (String × OptVal)) × Nat) := []
  nextId : Nat := 0

/-- Mirrors `PydanticSchema.from_model`: build the cache key from the
model and the sorted options — an unhashable option value raises a caught
`TypeError`, skipping the cache — return the cached class on a hit, else
synthesize the class (`Meta.model`, field set via `convert_model_fields`
with the `fields` whitelist and `exclude` blacklist options, computed
fields included) and store it under the key when one was built.  A schema
class is modelled as (allocation id, synthesized field set); on a cache
hit the field set is recomputed here, which is faithful because it is a
pure function of the key — the stored class carries exactly this set. -/
def from_model (env : Env) (st : FactoryState) (modelName : String) (model : PModel)
    (options : List (String × OptVal)) :
    (Nat × List (String × MaField)) × FactoryState :=
  let onlyFields := (alookup options "fields").map OptVal.names
  let excludeFields := ((alookup options "exclude").map OptVal.names).getD []
  let includeSet := match onlyFields with
    | some l => if l.isEmpty then none else some l
    | none => none
  let excludeSet := if excludeFields.isEmpty then none else some excludeFields
  let content := convert_model_fields env model includeSet excludeSet true
  if options.all (fun p => p.2.hashable) then
    let key := (modelName, sortOpts options)
    match klookup st.cache key with
    | some cid => ((cid, content), st)
    | none =>
      ((st.nextId, content),
        { cache := st.cache ++ [(key, st.nextId)], nextId := st.nextId + 1 })
  else
    ((st.nextId, content), { st with nextId := st.nextId + 1 })

/-! Helper lemmas shared by the claim theorems. -/

theorem attrs_mapAttrs (g : FieldAttrs → FieldAttrs) (f : MaField) :
    (f.mapAttrs g).attrs = g f.attrs := by
  cases f <;> rfl

/-- C9: `convert_pydantic_field` marks a field with a static default as
not required with both defaults set to that value; a field with only a
default factory as not required with the load default set to the factory
itself; a field with neither as required; it copies a declared alias to
`data_key`; and it sets `allow_none` when `None` is among the union
branches of the declared annotation. -/
theorem C9_convert_field_attrs (env : Env) (fi : PFieldInfo) :
    (∀ v : Val, fi.default = some v →
      (convert_pydantic_field env fi).attrs.required = false ∧
      (convert_pydantic_field env fi).attrs.loadDefault = .value v ∧
      (convert_pydantic_field env fi).attrs.dumpDefault = some v) ∧
    (∀ w : Val, fi.default = none → fi.defaultFactory = some w →
      (convert_pydantic_field env fi).attrs.required = false ∧
      (convert_pydantic_field env fi).attrs.loadDefault = .factory w) ∧
    (fi.default = none → fi.defaultFactory = none →
      (convert_pydantic_field env fi).attrs.required = true) ∧
    (∀ al : String, fi.aliasName = some al →
      (convert_pydantic_field env fi).attrs.dataKey = some al) ∧
    (∀ args : List PType, fi.annot = .unionT args → args.any PType.isNoneT →
      (convert_pydantic_field env fi).attrs.allowNone = true) := by
  obtain ⟨ann, dflt, fac, al, em⟩ := fi
  refine ⟨?_, ?_, ?_, ?_, ?_⟩
  · intro v hv
    simp only at hv
    subst hv
    refine ⟨?_, ?_, ?_⟩ <;>
      (simp only [convert_pydantic_field, applyFieldInfoAttrs]
       cases al <;> split <;> simp [attrs_mapAttrs])
  · intro w h1 h2
    simp only at h1 h2
    subst h1
    subst h2
    refine ⟨?_, ?_⟩ <;>
      (simp only [convert_pydantic_field, applyFieldInfoAttrs]
       cases al <;> split <;> simp [attrs_mapAttrs])
  · intro h1 h2
    simp only at h1 h2
    subst h1
    subst h2
    simp only [convert_pydantic_field, applyFieldInfoAttrs]
    cases al <;> split <;> simp [attrs_mapAttrs]
  · intro a ha
    simp only at ha
    subst ha
    simp only [convert_pydantic_field, applyFieldInfoAttrs]
    cases dflt <;> cases fac <;> split <;> simp [attrs_mapAttrs]
  · intro args hargs hany
    simp only at hargs
    subst hargs
    simp only [convert_pydantic_field, applyFieldInfoAttrs]
    cases dflt <;> cases fac <;> cases al <;> simp [attrs_mapAttrs, hany]


/-- Concrete field descriptors used by witness instantiations. -/
def fiDefault : PFieldInfo :=
  { annot := .unionT [.intT, .noneT], default := some (.vint 1),
    aliasName := some "a" }

/-- Concrete factory-default field descriptor for witnesses. -/
def fiFactory : PFieldInfo := { annot := .strT, defaultFactory := some (.vint 2) }

/-- Concrete required field descriptor for witnesses. -/
def fiRequired : PFieldInfo := { annot := .strT }

theorem C9_convert_field_attrs_witness :
    (convert_pydantic_field [] fiDefault).attrs.required = false ∧
    (convert_pydantic_field [] fiDefault).attrs.loadDefault = .value (.vint 1) ∧
    (convert_pydantic_field [] fiDefault).attrs.dumpDefault = some (.vint 1) ∧
    (convert_pydantic_field [] fiDefault).attrs.dataKey = some "a" ∧
    (convert_pydantic_field [] fiDefault).attrs.allowNone = true ∧
    (convert_pydantic_field [] fiFactory).attrs.required = false ∧
    (convert_pydantic_field [] fiFactory).attrs.loadDefault = .factory (.vint 2) ∧
    (convert_pydantic_field [] fiRequired).attrs.required = true := by
  refine ⟨((C9_convert_field_attrs [] fiDefault).1 _ rfl).1,
    ((C9_convert_field_attrs [] fiDefault).1 _ rfl).2.1,
    ((C9_convert_field_attrs [] fiDefault).1 _ rfl).2.2,
    (C9_convert_field_attrs [] fiDefault).2.2.2.1 "a" rfl,
    (C9_convert_field_attrs [] fiDefault).2.2.2.2 [.intT, .noneT] rfl rfl,
    ((C9_convert_field_attrs [] fiFactory).2.1 _ rfl rfl).1,
    ((C9_convert_field_attrs [] fiFactory).2.1 _ rfl rfl).2,
    (C9_convert_field_attrs [] fiRequired).2.2.1 rfl rfl⟩

theorem ttmf_model_hit (env : Env) (n : String) (processing : List String)
    (h : n ∈ processing) :
    type_to_marshmallow_field env processing (.modelT n) = .raw {} := by
  rw [type_to_marshmallow_field]
  simp [h]

theorem ttmf_int (env : Env) (processing : List String) :
    type_to_marshmallow_field env processing .intT = .intF {} := by
  rw [type_to_marshmallow_field]

theorem ttmf_model_step (env : Env) (n : String) (processing : List String) (m : PModel)
    (hn : n ∉ processing) (h : alookup env n = some m) :
    type_to_marshmallow_field env processing (.modelT n) =
      .nestedF
        ((m.fields.map (fun p => (p.1, applyFieldInfoAttrs p.2
            (type_to_marshmallow_field env (n :: processing) p.2.annot)))) ++
         (m.computed.map (fun p => (p.1,
            (type_to_marshmallow_field env (n :: processing) p.2).mapAttrs
            (fun a => { a with dumpOnly := true }))))) {} := by
  rw [type_to_marshmallow_field]
  simp only [hn, dite_false]
  split
  · rename_i m2 hl
    rw [h] at hl
    cases hl
    rfl
  · rename_i hl
    rw [h] at hl
    cases hl

/-- C7: synthesizing a schema for a self-referencing model, or for a
model in a two-model reference cycle, is well-defined (the synthesis
function is total — its defining equations below evaluate on every such
model, so the `_processing_models` guard does terminate the recursion) and
yields a usable nested schema in which exactly the field closing the cycle
degrades to the permissive `Raw` kind: a self-typed field maps to `Raw`
inside the synthesized nested schema while a sibling `int` field still
maps to `Integer`, and in a two-model cycle the first crossing stays a
真 `Nested` schema and only the edge returning to the in-progress model
degrades to `Raw`. -/
theorem C7_self_reference_termination :
    (∀ (env : Env) (n : String) (m : PModel) (f : String) (fi : PFieldInfo),
      alookup env n = some m → (f, fi) ∈ m.fields → fi.annot = .modelT n →
      ∃ flds, type_to_marshmallow_field env [] (.modelT n) = .nestedF flds {} ∧
        (f, applyFieldInfoAttrs fi (.raw {})) ∈ flds) ∧
    (∀ (env : Env) (n : String) (m : PModel) (f : String) (fi : PFieldInfo),
      alookup env n = some m → (f, fi) ∈ m.fields → fi.annot = .intT →
      ∃ flds, type_to_marshmallow_field env [] (.modelT n) = .nestedF flds {} ∧
        (f, applyFieldInfoAttrs fi (.intF {})) ∈ flds) ∧
    (∀ (env : Env) (nA nB : String) (mA mB : PModel) (f g : String) (fi gi : PFieldInfo),
      alookup env nA = some mA → alookup env nB = some mB → nB ≠ nA →
      (f, fi) ∈ mA.fields → fi.annot = .modelT nB →
      (g, gi) ∈ mB.fields → gi.annot = .modelT nA →
      ∃ fldsA fldsB,
        type_to_marshmallow_field env [] (.modelT nA) = .nestedF fldsA {} ∧
        (f, applyFieldInfoAttrs fi (.nestedF fldsB {})) ∈ fldsA ∧
        (g, applyFieldInfoAttrs gi (.raw {})) ∈ fldsB) := by
  refine ⟨?_, ?_, ?_⟩
  · intro env n m f fi h hmem hann
    refine ⟨_, ttmf_model_step env n [] m (by simp) h, ?_⟩
    apply List.mem_append_left
    refine List.mem_map.mpr ⟨(f, fi), hmem, ?_⟩
    show (f, applyFieldInfoAttrs fi (type_to_marshmallow_field env [n] fi.annot)) = _
    rw [hann, ttmf_model_hit env n [n] (by simp)]
  · intro env n m f fi h hmem hann
    refine ⟨_, ttmf_model_step env n [] m (by simp) h, ?_⟩
    apply List.mem_append_left
    refine List.mem_map.mpr ⟨(f, fi), hmem, ?_⟩
    show (f, applyFieldInfoAttrs fi (type_to_marshmallow_field env [n] fi.annot)) = _
    rw [hann, ttmf_int]
  · intro env nA nB mA mB f g fi gi hA hB hne hmemA hannA hmemB hannB
    refine ⟨_,
      (mB.fields.map (fun p => (p.1, applyFieldInfoAttrs p.2
          (type_to_marshmallow_field env [nB, nA] p.2.annot)))) ++
        (mB.computed.map (fun p => (p.1,
          (type_to_marshmallow_field env [nB, nA] p.2).mapAttrs
          (fun a => { a with dumpOnly := true })))),
      ttmf_model_step env nA [] mA (by simp) hA, ?_, ?_⟩
    · apply List.mem_append_left
      refine List.mem_map.mpr ⟨(f, fi), hmemA, ?_⟩
      show (f, applyFieldInfoAttrs fi (type_to_marshmallow_field env [nA] fi.annot)) = _
      rw [hannA, ttmf_model_step env nB [nA] mB (by simpa using hne) hB]
    · apply List.mem_append_left
      refine List.mem_map.mpr ⟨(g, gi), hmemB, ?_⟩
      show (g, applyFieldInfoAttrs gi
        (type_to_marshmallow_field env [nB, nA] gi.annot)) = _
      rw [hannB, ttmf_model_hit env nA [nB, nA] (by simp)]

/-- Concrete self-referential model for the C7 witness. -/
def mSelfC7 : PModel :=
  { fields := [("self", { annot := .modelT "A" }), ("k", { annot := .intT })] }

/-- Concrete two-cycle models for the C7 witness. -/
def mBC7 : PModel := { fields := [("toC", { annot := .modelT "C" })] }

/-- Second model of the two-cycle C7 witness. -/
def mCC7 : PModel := { fields := [("toB", { annot := .modelT "B" })] }

/-- Environment of the C7 witness. -/
def envC7 : Env := [("A", mSelfC7), ("B", mBC7), ("C", mCC7)]

theorem C7_self_reference_termination_witness :
    (∃ flds, type_to_marshmallow_field envC7 [] (.modelT "A") = .nestedF flds {} ∧
      ("self", applyFieldInfoAttrs { annot := .modelT "A" } (.raw {})) ∈ flds) ∧
    (∃ flds, type_to_marshmallow_field envC7 [] (.modelT "A") = .nestedF flds {} ∧
      ("k", applyFieldInfoAttrs { annot := .intT } (.intF {})) ∈ flds) ∧
    (∃ fldsA fldsB,
      type_to_marshmallow_field envC7 [] (.modelT "B") = .nestedF fldsA {} ∧
      ("toC", applyFieldInfoAttrs { annot := .modelT "C" } (.nestedF fldsB {})) ∈ fldsA ∧
      ("toB", applyFieldInfoAttrs { annot := .modelT "B" } (.raw {})) ∈ fldsB) :=
  ⟨C7_self_reference_termination.1 envC7 "A" mSelfC7 "self" _ rfl
      (by simp [mSelfC7]) rfl,
   C7_self_reference_termination.2.1 envC7 "A" mSelfC7 "k" _ rfl
      (by simp [mSelfC7]) rfl,
   C7_self_reference_termination.2.2 envC7 "B" "C" mBC7 mCC7 "toC" "toB" _ _ rfl rfl
      (by decide) (by simp [mBC7]) rfl (by simp [mCC7]) rfl⟩

theorem klookup_append {κ α : Type} [DecidableEq κ] (l1 l2 : List (κ × α)) (k : κ) :
    klookup (l1 ++ l2) k =
      match klookup l1 k with
      | some v => some v
      | none => klookup l2 k := by
  induction l1 with
  | nil => simp [klookup]
  | cons p rest ih =>
    obtain ⟨k2, v⟩ := p
    by_cases hk : k2 = k <;> simp [klookup, hk, ih]

theorem sortOpts_perm_eq {o1 o2 : List (String × OptVal)}
    (hperm : o1.Perm o2) (hnd : (o1.map Prod.fst).Nodup) :
    sortOpts o1 = sortOpts o2 := by
  have htrans : ∀ (a b c : String × OptVal), decide (a.1 ≤ b.1) = true →
      decide (b.1 ≤ c.1) = true → decide (a.1 ≤ c.1) = true := by
    intro a b c h1 h2
    simp only [decide_eq_true_eq] at h1 h2 ⊢
    exact le_trans h1 h2
  have htotal : ∀ (a b : String × OptVal),
      (decide (a.1 ≤ b.1) || decide (b.1 ≤ a.1)) = true := by
    intro a b
    simpa using le_total a.1 b.1
  have hs1 := List.sorted_mergeSort htrans htotal o1
  have hs2 := List.sorted_mergeSort htrans htotal o2
  have hp1 : (o1.mergeSort (fun a b => decide (a.1 ≤ b.1))).Perm o1 :=
    List.mergeSort_perm o1 _
  have hp2 : (o2.mergeSort (fun a b => decide (a.1 ≤ b.1))).Perm o2 :=
    List.mergeSort_perm o2 _
  have hnd2 : (o2.map Prod.fst).Nodup := ((hperm.map Prod.fst).nodup_iff).mp hnd
  have hne1 : (o1.mergeSort (fun a b => decide (a.1 ≤ b.1))).Pairwise
      (fun a b => a.1 ≠ b.1) := by
    have : ((o1.mergeSort (fun a b => decide (a.1 ≤ b.1))).map Prod.fst).Nodup :=
      ((hp1.map Prod.fst).nodup_iff).mpr hnd
    exact (List.pairwise_map).mp this
  have hne2 : (o2.mergeSort (fun a b => decide (a.1 ≤ b.1))).Pairwise
      (fun a b => a.1 ≠ b.1) := by
    have : ((o2.mergeSort (fun a b => decide (a.1 ≤ b.1))).map Prod.fst).Nodup :=
      ((hp2.map Prod.fst).nodup_iff).mpr hnd2
    exact (List.pairwise_map).mp this
  have hlt1 : (o1.mergeSort (fun a b => decide (a.1 ≤ b.1))).Pairwise
      (fun a b => a.1 < b.1) :=
    (hs1.and hne1).imp (fun hab => lt_of_le_of_ne (by simpa using hab.1) hab.2)
  have hlt2 : (o2.mergeSort (fun a b => decide (a.1 ≤ b.1))).Pairwise
      (fun a b => a.1 < b.1) :=
    (hs2.and hne2).imp (fun hab => lt_of_le_of_ne (by simpa using hab.1) hab.2)
  haveI : IsAntisymm (String × OptVal) (fun a b => a.1 < b.1) :=
    ⟨fun a b h1 h2 => absurd h1 (lt_asymm h2)⟩
  exact List.eq_of_perm_of_sorted (hp1.trans (hperm.trans hp2.symm)) hlt1 hlt2

/-- C5: calling the schema factory twice with the same model and equal
hashable filter options — even if the keyword options are supplied in a
different order — returns the identical cached schema-class object the
second time (the same allocation id, not merely an equal field set). -/
theorem C5_schema_factory_idempotent
    (env : Env) (modelName : String) (model : PModel) (st : FactoryState)
    (o1 o2 : List (String × OptVal))
    (hperm : o1.Perm o2) (hnd : (o1.map Prod.fst).Nodup)
    (hh : ∀ p ∈ o1, p.2.hashable = true) :
    (from_model env (from_model env st modelName model o1).2 modelName model o2).1.1 =
      (from_model env st modelName model o1).1.1 := by
  have hall1 : o1.all (fun p => p.2.hashable) = true := List.all_eq_true.mpr hh
  have hall2 : o2.all (fun p => p.2.hashable) = true :=
    List.all_eq_true.mpr (fun p hp => hh p (hperm.symm.subset hp))
  have hkey : sortOpts o2 = sortOpts o1 := (sortOpts_perm_eq hperm hnd).symm
  simp only [from_model, hall1, hall2, if_true, hkey]
  cases hk : klookup st.cache (modelName, sortOpts o1) with
  | some cid => simp [hk]
  | none => simp [hk, klookup_append, klookup]

theorem C5_schema_factory_idempotent_witness :
    (from_model [] (from_model [] {} "M" { fields := [] }
        [("fields", .tup ["a"]), ("load_only", .tup [])]).2 "M" { fields := [] }
        [("load_only", .tup []), ("fields", .tup ["a"])]).1.1 =
      (from_model [] {} "M" { fields := [] }
        [("fields", .tup ["a"]), ("load_only", .tup [])]).1.1 :=
  C5_schema_factory_idempotent [] "M" { fields := [] } {}
    [("fields", .tup ["a"]), ("load_only", .tup [])]
    [("load_only", .tup []), ("fields", .tup ["a"])]
    (by decide) (by decide) (by decide)

theorem alookup_map_snd {α β : Type} (l : List (String × α)) (g : α → β) (k : String) :
    alookup (l.map (fun p => (p.1, g p.2))) k = (alookup l k).map g := by
  induction l with
  | nil => rfl
  | cons p rest ih =>
    obtain ⟨k2, v⟩ := p
    by_cases hk : k2 = k <;> simp [alookup, hk, ih]

/-- C6: calling the factory with unhashable filter options (the caught
`TypeError` of the key construction — here, any option carrying a list
value) surfaces no error: `from_model` still returns a schema class, the
cache is left untouched, and the synthesized field set is exactly the one
the same call with hashable (tuple-valued) options of the same names would
have produced and cached. -/
theorem C6_unhashable_options_skip_cache
    (env : Env) (modelName : String) (model : PModel) (st : FactoryState)
    (options : List (String × OptVal))
    (hun : ¬ (options.all (fun p => p.2.hashable) = true)) :
    (from_model env st modelName model options).2.cache = st.cache ∧
    (from_model env st modelName model options).1.2 =
      (from_model env st modelName model
        (options.map (fun p => (p.1, .tup p.2.names)))).1.2 := by
  have hmapped : (options.map (fun p => ((p.1 : String), OptVal.tup p.2.names))).all
      (fun p => p.2.hashable) = true := by
    simp [List.all_map, Function.comp, OptVal.hashable]
  have hfields : alookup (options.map (fun p => ((p.1 : String), OptVal.tup p.2.names)))
      "fields" = (alookup options "fields").map (fun v => OptVal.tup v.names) :=
    alookup_map_snd options (fun v => OptVal.tup v.names) "fields"
  have hexclude : alookup (options.map (fun p => ((p.1 : String), OptVal.tup p.2.names)))
      "exclude" = (alookup options "exclude").map (fun v => OptVal.tup v.names) :=
    alookup_map_snd options (fun v => OptVal.tup v.names) "exclude"
  constructor
  · simp only [from_model, if_neg hun]
  · simp only [from_model, if_neg hun, if_pos hmapped, hfields, hexclude]
    cases hk : klookup st.cache
        (modelName, sortOpts (options.map (fun p => (p.1, OptVal.tup p.2.names)))) <;>
      simp [hk] <;>
      cases halo : alookup options "fields" <;>
      cases halo2 : alookup options "exclude" <;>
      simp [halo, halo2, OptVal.names]

theorem C6_unhashable_options_skip_cache_witness :
    (from_model [] {} "M" { fields := [] } [("fields", .lst ["a"])]).2.cache =
      FactoryState.cache {} ∧
    (from_model [] {} "M" { fields := [] } [("fields", .lst ["a"])]).1.2 =
      (from_model [] {} "M" { fields := [] }
        ([("fields", OptVal.lst ["a"])].map (fun p => (p.1, .tup p.2.names)))).1.2 :=
  C6_unhashable_options_skip_cache [] "M" { fields := [] } {}
    [("fields", .lst ["a"])] (by decide)

theorem alookup_eq_none_iff {α : Type} (l : List (String × α)) (k : String) :
    alookup l k = none ↔ k ∉ dkeys l := by
  induction l with
  | nil => simp [alookup, dkeys]
  | cons p rest ih =>
    obtain ⟨k2, v⟩ := p
    by_cases hk : k2 = k <;> simp [alookup, dkeys, hk, ih] <;> simp [dkeys] at ih ⊢ <;> tauto

/-- C2: for a subset `S` of a model's field names, loading a dict whose
keys are exactly `S` with `partial=S` — whether `S` is given as `True`
(meaning all fields), a list, a tuple, or a set — makes the partial-mode
missing-field check blame exactly the required fields (no default, no
factory) outside `S`: no field of `S` is ever blamed, and when such fields
exist the load is rejected with one "Missing data for required field."
message per such field, identically for every validation engine — i.e.
before Engine A is invoked. -/
theorem C2_partial_missing_check
    (m : PModel)
    (engine : List (String × Val) → Except (List EngineError) (List (String × Val)))
    (d : List (String × Val)) (S : List String) (rep : PartialArg)
    (hrep : (rep = .ptrue ∧ S = m.fields.map Prod.fst) ∨ rep = .plist S ∨
      rep = .ptup S ∨ rep = .pset S)
    (hkeys : ∀ k, k ∈ dkeys d ↔ k ∈ S)
    (hS : ∀ s ∈ S, s ∈ m.fields.map Prod.fst) :
    (∀ f, f ∈ dkeys (m.fields.filterMap (fun p =>
        if p.1 ∉ S ∧ p.2.default.isNone ∧ p.2.defaultFactory.isNone
        then some (p.1, ["Missing data for required field."]) else none)) ↔
      (∃ fi, (f, fi) ∈ m.fields ∧ fi.default.isNone ∧ fi.defaultFactory.isNone ∧ f ∉ S)) ∧
    (∀ s ∈ S, s ∉ dkeys (m.fields.filterMap (fun p =>
        if p.1 ∉ S ∧ p.2.default.isNone ∧ p.2.defaultFactory.isNone
        then some (p.1, ["Missing data for required field."]) else none))) ∧
    ((m.fields.filterMap (fun p =>
        if p.1 ∉ S ∧ p.2.default.isNone ∧ p.2.defaultFactory.isNone
        then some (p.1, ["Missing data for required field."]) else none)) ≠ [] →
      validatePartial m engine d rep d =
        .error ⟨m.fields.filterMap (fun p =>
            if p.1 ∉ S ∧ p.2.default.isNone ∧ p.2.defaultFactory.isNone
            then some (p.1, ["Missing data for required field."]) else none),
          .vdict d,
          d.filter (fun p =>
            p.1 ∉ dkeys (m.fields.filterMap (fun q =>
              if q.1 ∉ S ∧ q.2.default.isNone ∧ q.2.defaultFactory.isNone
              then some (q.1, ["Missing data for required field."]) else none)) ∧
            (alookup m.fields p.1).isSome)⟩) := by
  have hcond : ∀ p ∈ m.fields,
      (if (alookup d p.1).isNone ∧ p.1 ∉ partialFields m rep ∧
          p.2.default.isNone ∧ p.2.defaultFactory.isNone
       then some (p.1, ["Missing data for required field."]) else none) =
      (if p.1 ∉ S ∧ p.2.default.isNone ∧ p.2.defaultFactory.isNone
       then some (p.1, ["Missing data for required field."]) else none) := by
    intro p hp
    have hd : ((alookup d p.1).isNone = true) ↔ p.1 ∉ S := by
      rw [Option.isNone_iff_eq_none, alookup_eq_none_iff]
      constructor
      · intro h hs
        exact h ((hkeys p.1).mpr hs)
      · intro h hs
        exact h ((hkeys p.1).mp hs)
    have hiff : ((alookup d p.1).isNone = true ∧ p.1 ∉ partialFields m rep ∧
        p.2.default.isNone = true ∧ p.2.defaultFactory.isNone = true) ↔
        (p.1 ∉ S ∧ p.2.default.isNone = true ∧ p.2.defaultFactory.isNone = true) := by
      rcases hrep with ⟨h1, h2⟩ | h1 | h1 | h1
      · subst h1
        subst h2
        have hin : p.1 ∈ partialFields m .ptrue := by
          simp only [partialFields]
          exact List.mem_map.mpr ⟨p, hp, rfl⟩
        constructor
        · rintro ⟨_, hnp, _⟩
          exact absurd hin hnp
        · rintro ⟨hnp, _⟩
          exact absurd (List.mem_map.mpr ⟨p, hp, rfl⟩) hnp
      · subst h1
        simp only [partialFields]
        exact ⟨fun h => ⟨h.2.1, h.2.2⟩, fun h => ⟨hd.mpr h.1, h.1, h.2⟩⟩
      · subst h1
        simp only [partialFields]
        exact ⟨fun h => ⟨h.2.1, h.2.2⟩, fun h => ⟨hd.mpr h.1, h.1, h.2⟩⟩
      · subst h1
        simp only [partialFields]
        exact ⟨fun h => ⟨hd.mp h.1, h.2.2⟩, fun h => ⟨hd.mpr h.1, by simp, h.2⟩⟩
    exact if_congr hiff rfl rfl
  refine ⟨?_, ?_, ?_⟩
  · intro f
    constructor
    · intro hf
      simp only [dkeys, List.mem_map] at hf
      obtain ⟨q, hqL, hqf⟩ := hf
      obtain ⟨⟨p1, p2⟩, hp, hg⟩ := List.mem_filterMap.mp hqL
      split at hg
      · rename_i hcc
        cases hg
        refine ⟨p2, ?_, hcc.2.1, hcc.2.2, ?_⟩
        · rw [← hqf]
          exact hp
        · rw [← hqf]
          exact hcc.1
      · cases hg
    · intro hex
      obtain ⟨fi, hmem, h1, h2, h3⟩ := hex
      simp only [dkeys, List.mem_map]
      refine ⟨(f, ["Missing data for required field."]), ?_, rfl⟩
      refine List.mem_filterMap.mpr ⟨(f, fi), hmem, ?_⟩
      rw [if_pos]
      exact ⟨h3, h1, h2⟩
  · intro s hs hmem
    simp only [dkeys, List.mem_map] at hmem
    obtain ⟨q, hqL, hqf⟩ := hmem
    obtain ⟨⟨p1, p2⟩, hp, hg⟩ := List.mem_filterMap.mp hqL
    split at hg
    · rename_i hcc
      cases hg
      simp only at hqf
      subst hqf
      exact hcc.1 hs
    · cases hg
  · intro hne
    rw [validatePartial]
    rw [List.filterMap_congr hcond]
    rw [if_pos hne]
    have hdata : (if d.isEmpty then d else d) = d := by
      split <;> rfl
    rw [hdata]

/-- Concrete model for the C2 witness: a required `name`, a required
`age`, and a defaulted `bio`. -/
def mC2 : PModel :=
  { fields := [("name", { annot := .strT }), ("age", { annot := .intT }),
      ("bio", { annot := .strT, default := some (.vstr "") })] }

theorem C2_partial_missing_check_witness :
    ("name" ∉ dkeys (mC2.fields.filterMap (fun p =>
      if p.1 ∉ ["name"] ∧ p.2.default.isNone ∧ p.2.defaultFactory.isNone
      then some (p.1, ["Missing data for required field."]) else none))) ∧
    validatePartial mC2 (fun _ => .ok []) [("name", .vstr "A")] (.plist ["name"])
        [("name", .vstr "A")] =
      .error ⟨[("age", ["Missing data for required field."])],
        .vdict [("name", .vstr "A")], [("name", .vstr "A")]⟩ :=
  ⟨(C2_partial_missing_check mC2 (fun _ => .ok []) [("name", .vstr "A")] ["name"]
      (.plist ["name"]) (Or.inr (Or.inl rfl)) (fun _ => Iff.rfl) (by decide)).2.1
      "name" (by decide),
   (C2_partial_missing_check mC2 (fun _ => .ok []) [("name", .vstr "A")] ["name"]
      (.plist ["name"]) (Or.inr (Or.inl rfl)) (fun _ => Iff.rfl) (by decide)).2.2
      (by decide)⟩

/-- C10: with no bound model, `load` never applies the unknown-field
policy and never invokes Engine A — the outcome is identical for every
policy setting and for every engine, even on inputs full of undeclared
keys — and with no custom validators registered it returns the pre-load
processed mapping (after post-load hooks) unchanged. -/
theorem C10_unbound_model_policy_not_applied
    (cfg : SchemaCfg) (hmodel : cfg.model = none)
    (engine1 engine2 :
      PModel → List (String × Val) → Except (List EngineError) (List (String × Val)))
    (u1 u2 : UnknownPolicy) (d : List (String × Val)) :
    (do_load_single { cfg with unknown := u1 } engine1 d =
      do_load_single { cfg with unknown := u2 } engine2 d) ∧
    (cfg.fieldValidators = [] → cfg.schemaValidators = [] →
      do_load_single cfg engine1 d =
        .ok (cfg.postLoad.foldl (fun r f => f r)
          (.dictR (cfg.preLoad.foldl (fun x f => f x) d)))) := by
  obtain ⟨mo, un, pm, pre, post, fv, sv, ri⟩ := cfg
  simp only at hmodel
  subst hmodel
  constructor
  · rfl
  · intro hfv hsv
    simp only at hfv hsv
    subst hfv
    subst hsv
    simp only [do_load_single, post_validate_steps]
    cases pm <;> rfl

theorem C10_unbound_model_policy_not_applied_witness :
    (do_load_single { model := none, unknown := .uraise } (fun _ _ => .ok [])
        [("extra", .vint 9)] =
      do_load_single { model := none, unknown := .uexclude }
        (fun _ _ => .error [⟨[], "boom", "x"⟩]) [("extra", .vint 9)]) ∧
    do_load_single { model := none, unknown := .uraise } (fun _ _ => .ok [])
        [("extra", .vint 9)] =
      .ok (.dictR [("extra", .vint 9)]) := by
  have h := C10_unbound_model_policy_not_applied { model := none }
    rfl (fun _ _ => .ok []) (fun _ _ => .error [⟨[], "boom", "x"⟩]) .uraise .uexclude
    [("extra", .vint 9)]
  exact ⟨h.1, h.2 rfl rfl⟩

/-- Concrete one-field model for the C3 batch scenario. -/
def mC3 : PModel := { fields := [("name", { annot := .strT })] }

/-- C3 (amended): under `many=True` on `[valid_item, invalid_item]`,
exactly one exception is raised — elements are loaded sequentially with
`many=False` and the first failure propagates unchanged, so the raised
error is the invalid item's own validation error (its messages keyed by
field name; the valid item at index 0 contributes no errors).  No index
key is attached to the messages. -/
theorem C3_many_single_exception_field_keyed
    (cfg : SchemaCfg)
    (engine : PModel → List (String × Val) → Except (List EngineError) (List (String × Val)))
    (x0 x1 : List (String × Val)) (r0 : LoadResult) (e1 : BridgeError)
    (h0 : do_load_single cfg engine x0 = .ok r0)
    (h1 : do_load_single cfg engine x1 = .error e1) :
    do_load_many cfg engine (some [x0, x1]) = .error e1 := by
  simp [do_load_many, List.mapM, List.mapM.loop, h0, h1, Bind.bind, Except.bind]

theorem C3_many_single_exception_field_keyed_witness :
    do_load_many { model := some mC3 } (validateModel [])
        (some [[("name", .vstr "A")], [("name", .vint 0)]]) =
      .error ⟨[("name", ["Invalid value"])], .vdict [("name", .vint 0)], []⟩ :=
  C3_many_single_exception_field_keyed { model := some mC3 } (validateModel [])
    [("name", .vstr "A")] [("name", .vint 0)] (.instR [("name", .vstr "A")])
    ⟨[("name", ["Invalid value"])], .vdict [("name", .vint 0)], []⟩
    (by simp [do_load_single, post_validate_steps, run_validators, validateModel, pydCoerce, mC3,
      get_model_field_names_with_aliases, dkeys, alookup])
    (by simp [do_load_single, post_validate_steps, run_validators, validateModel, pydCoerce, mC3,
      get_model_field_names_with_aliases, dkeys, alookup, convert_pydantic_errors,
      format_pydantic_error, build_error_path, addMsg])

/-- C3 counterexample to the claim as stated: the exception raised for
`[valid, invalid]` under `many=True` keys the invalid item's errors by
plain field name (`"name"`), and no key carries the item index `1` — the
messages are not organized so that the errors are attributable to index 1.
(Marshmallow's native batch behavior would key them under `1`.) -/
theorem C3_counterexample :
    do_load_many { model := some mC3 } (validateModel [])
        (some [[("name", .vstr "A")], [("name", .vint 0)]]) =
      .error ⟨[("name", ["Invalid value"])], .vdict [("name", .vint 0)], []⟩ ∧
    ¬ (∀ k ∈ dkeys ([("name", ["Invalid value"])] : List (String × List String)),
        k = "1" ∨ List.isPrefixOf "1.".data k.data) := by
  constructor
  · simp only [do_load_many, List.mapM, List.mapM.loop]
    rw [show do_load_single { model := some mC3 } (validateModel [])
        [("name", .vstr "A")] = .ok (.instR [("name", .vstr "A")]) from by
      simp [do_load_single, post_validate_steps, run_validators, validateModel, pydCoerce, mC3,
        get_model_field_names_with_aliases, dkeys, alookup]]
    rw [show do_load_single { model := some mC3 } (validateModel [])
        [("name", .vint 0)] =
        .error ⟨[("name", ["Invalid value"])], .vdict [("name", .vint 0)], []⟩ from by
      simp [do_load_single, post_validate_steps, run_validators, validateModel, pydCoerce, mC3,
        get_model_field_names_with_aliases, dkeys, alookup, convert_pydantic_errors,
        format_pydantic_error, build_error_path, addMsg]]
    simp [Bind.bind, Except.bind]
  · intro h
    have := h "name" (by simp [dkeys])
    rcases this with h1 | h1
    · exact absurd h1 (by decide)
    · exact absurd h1 (by decide)


theorem dot_mem_intercalate_go (l : List String) (acc : String) (h : '.' ∈ acc.data) :
    '.' ∈ (String.intercalate.go acc "." l).data := by
  induction l generalizing acc with
  | nil => simpa [String.intercalate.go]
  | cons a as ih =>
    rw [String.intercalate.go]
    apply ih
    simp [String.data_append]

theorem dot_mem_build_error_path (a b : String) (rest : List String) :
    '.' ∈ (build_error_path (a :: b :: rest)).data := by
  show '.' ∈ (String.intercalate "." (a :: b :: rest)).data
  rw [String.intercalate, String.intercalate.go]
  apply dot_mem_intercalate_go
  simp [String.data_append]

theorem addMsg_keys (l : List (String × List String)) (k : String) (m : String) :
    ∀ k2, k2 ∈ dkeys (addMsg l k m) ↔ k2 ∈ dkeys l ∨ k2 = k := by
  intro k2
  induction l with
  | nil => simp [addMsg, dkeys]
  | cons p rest ih =>
    obtain ⟨k3, ms⟩ := p
    by_cases hk : k3 = k
    · subst hk
      simp [addMsg, dkeys]
      tauto
    · simp [addMsg, hk, dkeys] at ih ⊢
      tauto

theorem alookup_isSome_mem {α : Type} {l : List (String × α)} {k : String}
    (h : (alookup l k).isSome = true) : ∃ v, (k, v) ∈ l := by
  obtain ⟨v, hv⟩ := Option.isSome_iff_exists.mp h
  exact ⟨v, alookup_mem hv⟩

theorem dkeys_filter_subset {α : Type} (d : List (String × α)) (q : String × α → Bool) :
    ∀ k ∈ dkeys (d.filter q), k ∈ dkeys d := by
  intro k hk
  simp only [dkeys, List.mem_map] at hk ⊢
  obtain ⟨p, hp, hpk⟩ := hk
  exact ⟨p, List.mem_of_mem_filter hp, hpk⟩

theorem post_validate_steps_error_validData (cfg : SchemaCfg) (pt : Bool)
    (vd : List (String × Val)) (inst? : Option (List (String × Val))) (e : BridgeError)
    (h : post_validate_steps cfg pt vd inst? = .error e) : e.validData = [] := by
  rw [post_validate_steps.eq_def] at h
  cases hA : (run_validators cfg vd).isEmpty
  · simp only [hA, Bool.false_eq_true, if_false] at h
    cases h
    rfl
  · simp only [hA, if_true] at h
    cases h

theorem convert_fold_invariant (model? : Option PModel) (errors : List EngineError)
    (acc : List (String × List String) × List String) :
    (∀ x ∈ acc.2, x ∈ (errors.foldl (fun (acc : List (String × List String) × List String) e =>
        let msg := format_pydantic_error model? e
        match e.loc with
        | [] => (addMsg acc.1 "_schema" msg, acc.2)
        | f :: _ => (addMsg acc.1 (build_error_path e.loc) msg, acc.2 ++ [f])) acc).2) ∧
    (∀ k ∈ dkeys (errors.foldl (fun (acc : List (String × List String) × List String) e =>
        let msg := format_pydantic_error model? e
        match e.loc with
        | [] => (addMsg acc.1 "_schema" msg, acc.2)
        | f :: _ => (addMsg acc.1 (build_error_path e.loc) msg, acc.2 ++ [f])) acc).1,
      k ∈ dkeys acc.1 ∨ k = "_schema" ∨
        k ∈ (errors.foldl (fun (acc : List (String × List String) × List String) e =>
          let msg := format_pydantic_error model? e
          match e.loc with
          | [] => (addMsg acc.1 "_schema" msg, acc.2)
          | f :: _ => (addMsg acc.1 (build_error_path e.loc) msg, acc.2 ++ [f])) acc).2 ∨
        '.' ∈ k.data) := by
  induction errors generalizing acc with
  | nil =>
    refine ⟨fun x hx => hx, fun k hk => Or.inl hk⟩
  | cons e es ih =>
    rw [List.foldl_cons]
    rcases hloc : e.loc with _ | ⟨f, rest⟩
    · simp only [hloc]
      obtain ⟨ih1, ih2⟩ := ih (addMsg acc.1 "_schema" (format_pydantic_error model? e), acc.2)
      refine ⟨ih1, fun k hk => ?_⟩
      rcases ih2 k hk with h1 | h2 | h3 | h4
      · rcases (addMsg_keys _ _ _ k).mp h1 with h5 | h5
        · exact Or.inl h5
        · exact Or.inr (Or.inl h5)
      · exact Or.inr (Or.inl h2)
      · exact Or.inr (Or.inr (Or.inl h3))
      · exact Or.inr (Or.inr (Or.inr h4))
    · simp only [hloc]
      obtain ⟨ih1, ih2⟩ := ih
        (addMsg acc.1 (build_error_path (f :: rest)) (format_pydantic_error model? e),
         acc.2 ++ [f])
      refine ⟨fun x hx => ih1 x (List.mem_append_left _ hx), fun k hk => ?_⟩
      rcases ih2 k hk with h1 | h2 | h3 | h4
      · rcases (addMsg_keys _ _ _ k).mp h1 with h5 | h5
        · exact Or.inl h5
        · rcases hrest : rest with _ | ⟨g, rest2⟩
          · subst hrest
            have heq : build_error_path [f] = f := rfl
            rw [heq] at h5
            subst h5
            exact Or.inr (Or.inr (Or.inl (ih1 k (List.mem_append_right _ (by simp)))))
          · subst hrest
            subst h5
            exact Or.inr (Or.inr (Or.inr (dot_mem_build_error_path f g rest2)))
      · exact Or.inr (Or.inl h2)
      · exact Or.inr (Or.inr (Or.inl h3))
      · exact Or.inr (Or.inr (Or.inr h4))

theorem convert_pydantic_errors_disjoint (errors : List EngineError) (m : PModel)
    (originalData : List (String × Val))
    (hdot : ∀ p ∈ m.fields, '.' ∉ p.1.data)
    (hschema : ∀ p ∈ m.fields, p.1 ≠ "_schema") :
    (∀ k ∈ dkeys (convert_pydantic_errors errors (some m) originalData).validData,
      k ∉ dkeys (convert_pydantic_errors errors (some m) originalData).messages) ∧
    (∀ k ∈ dkeys (convert_pydantic_errors errors (some m) originalData).validData,
      k ∈ dkeys originalData) := by
  simp only [convert_pydantic_errors]
  by_cases hemp : originalData.isEmpty
  · simp [hemp, dkeys]
  · simp only [hemp, if_neg, Bool.false_eq_true, if_false]
    constructor
    · intro k hk hmem
      simp only [dkeys, List.mem_map] at hk
      obtain ⟨p, hpf, hpk⟩ := hk
      have hpred := List.of_mem_filter hpf
      have hpmem := List.mem_of_mem_filter hpf
      simp only [decide_eq_true_eq] at hpred
      obtain ⟨hnot_failed, hsome⟩ := hpred
      obtain ⟨fi, hfi⟩ := alookup_isSome_mem hsome
      rcases (convert_fold_invariant (some m) errors ([], [])).2 k hmem with
        h1 | h2 | h3 | h4
      · simp [dkeys] at h1
      · subst hpk
        exact hschema _ hfi h2
      · subst hpk
        exact hnot_failed h3
      · subst hpk
        exact hdot _ hfi h4
    · intro k hk
      exact dkeys_filter_subset _ _ k hk

theorem partial_fold_keys (m : PModel) (d : List (String × Val)) (es : List EngineError)
    (acc : List (String × List String) × List String)
    (hacc : ∀ k ∈ dkeys acc.1, k ∈ acc.2) :
    ∀ k ∈ dkeys ((es.foldl (fun (acc : List (String × List String) × List String) e =>
        match e.loc with
        | [] => acc
        | f :: _ =>
          if (alookup d f).isSome then
            (addMsg acc.1 f (format_pydantic_error (some m) e), acc.2 ++ [f])
          else (acc.1, acc.2 ++ [f])) acc)).1,
      k ∈ ((es.foldl (fun (acc : List (String × List String) × List String) e =>
        match e.loc with
        | [] => acc
        | f :: _ =>
          if (alookup d f).isSome then
            (addMsg acc.1 f (format_pydantic_error (some m) e), acc.2 ++ [f])
          else (acc.1, acc.2 ++ [f])) acc)).2 := by
  induction es generalizing acc with
  | nil => exact hacc
  | cons e es ih =>
    rw [List.foldl_cons]
    rcases hloc : e.loc with _ | ⟨f, rest⟩
    · simp only [hloc]
      exact ih acc hacc
    · simp only [hloc]
      by_cases hprov : (alookup d f).isSome
      · simp only [hprov, if_true]
        refine ih _ (fun k hk => ?_)
        rcases (addMsg_keys _ _ _ k).mp hk with h1 | h1
        · exact List.mem_append_left _ (hacc k h1)
        · subst h1
          exact List.mem_append_right _ (by simp)
      · simp only [hprov, Bool.false_eq_true, if_false]
        refine ih _ (fun k hk => ?_)
        exact List.mem_append_left _ (hacc k hk)

theorem validate_partial_error_disjoint (m : PModel)
    (engine : List (String × Val) → Except (List EngineError) (List (String × Val)))
    (d : List (String × Val)) (parg : PartialArg) (orig : List (String × Val))
    (e : BridgeError) (h : validatePartial m engine d parg orig = .error e) :
    (∀ k ∈ dkeys e.validData, k ∉ dkeys e.messages) ∧
    (∀ k ∈ dkeys e.validData, k ∈ dkeys d) := by
  rw [validatePartial] at h
  split at h
  · rename_i hne
    cases h
    constructor
    · intro k hk hmem
      simp only [dkeys, List.mem_map] at hk
      obtain ⟨p, hpf, hpk⟩ := hk
      have hpred := List.of_mem_filter hpf
      simp only [decide_eq_true_eq] at hpred
      apply hpred.1
      subst hpk
      simpa [dkeys] using hmem
    · intro k hk
      exact dkeys_filter_subset _ _ k hk
  · rename_i hne
    rcases heng : engine (m.fields.filterMap (fun p =>
      match alookup d p.1 with
      | some v => some (p.1, v)
      | none =>
        match p.2.default with
        | some dv => some (p.1, dv)
        | none =>
          match p.2.defaultFactory with
          | some fv => some (p.1, fv)
          | none => none)) with es | inst
    · simp only [heng] at h
      split at h
      · rename_i hne2
        cases h
        constructor
        · intro k hk hmem
          simp only [dkeys, List.mem_map] at hk
          obtain ⟨p, hpf, hpk⟩ := hk
          have hpred := List.of_mem_filter hpf
          simp only [decide_eq_true_eq] at hpred
          apply hpred.1
          subst hpk
          refine partial_fold_keys m d es ([], []) (by simp [dkeys]) _ ?_
          simpa [dkeys] using hmem
        · intro k hk
          exact dkeys_filter_subset _ _ k hk
      · cases h
    · simp [heng] at h

theorem do_load_error_valid_sub
    (cfg : SchemaCfg)
    (engine : PModel → List (String × Val) → Except (List EngineError) (List (String × Val)))
    (d : List (String × Val)) (e : BridgeError)
    (hpre : cfg.preLoad = [])
    (hm : ∀ m, cfg.model = some m → ∀ p ∈ m.fields, '.' ∉ p.1.data ∧ p.1 ≠ "_schema")
    (herr : do_load_single cfg engine d = .error e) :
    (∀ k ∈ dkeys e.validData, k ∉ dkeys e.messages) ∧
    (∀ k ∈ dkeys e.validData, k ∈ dkeys d) := by
  rcases hcm : cfg.model with _ | m
  · simp only [do_load_single, hpre, List.foldl_nil, hcm] at herr
    have hv := post_validate_steps_error_validData _ _ _ _ _ herr
    rw [hv]
    simp [dkeys]
  · by_cases hraise : cfg.unknown = .uraise ∧
      ((dkeys d).filter (fun k => k ∉ get_model_field_names_with_aliases m)) ≠ []
    · simp only [do_load_single, hpre, List.foldl_nil, hcm, if_pos hraise] at herr
      simp only [Except.error.injEq] at herr
      subst herr
      simp [dkeys]
    · rcases hpm : cfg.partialMode with _ | p
      · rcases heng : engine m (if cfg.unknown = .uexclude then
            d.filter (fun p => p.1 ∈ get_model_field_names_with_aliases m) else d)
          with es | inst
        · simp only [do_load_single, hpre, List.foldl_nil, hcm, hpm, if_neg hraise,
            heng] at herr
          simp only [Except.error.injEq] at herr
          subst herr
          by_cases hde : d.isEmpty
          · have hdnil : d = [] := by simpa [List.isEmpty_iff] using hde
            subst hdnil
            simp only [convert_pydantic_errors]
            constructor <;> intro k hk <;> rw [show (if cfg.unknown = .uexclude then
                List.filter (fun p => decide (p.1 ∈ get_model_field_names_with_aliases m)) []
                else ([] : List (String × Val))) = [] from by split <;> rfl] at hk <;>
              simp [dkeys] at hk
          · simp only [hde, Bool.false_eq_true, if_false] at *
            exact convert_pydantic_errors_disjoint es m d
              (fun p hp => (hm m hcm p hp).1) (fun p hp => (hm m hcm p hp).2)
        · simp only [do_load_single, hpre, List.foldl_nil, hcm, hpm, if_neg hraise,
            heng] at herr
          have hv := post_validate_steps_error_validData _ _ _ _ _ herr
          rw [hv]
          simp [dkeys]
      · by_cases hpt : p.truthy = true
        · rcases hvp : validatePartial m (engine m) (if cfg.unknown = .uexclude then
              d.filter (fun p => p.1 ∈ get_model_field_names_with_aliases m) else d) p d
            with evp | vd2
          · simp only [do_load_single, hpre, List.foldl_nil, hcm, hpm, if_neg hraise,
              hpt, if_true, hvp, Except.map] at herr
            simp only [Except.error.injEq] at herr
            subst herr
            have hB := validate_partial_error_disjoint m (engine m) _ p d _ hvp
            refine ⟨hB.1, fun k hk => ?_⟩
            have hsub := hB.2 k hk
            by_cases hexc : cfg.unknown = .uexclude
            · rw [if_pos hexc] at hsub
              exact dkeys_filter_subset _ _ k hsub
            · rw [if_neg hexc] at hsub
              exact hsub
          · simp only [do_load_single, hpre, List.foldl_nil, hcm, hpm, if_neg hraise,
              hpt, if_true, hvp, Except.map] at herr
            have hv := post_validate_steps_error_validData _ _ _ _ _ herr
            rw [hv]
            simp [dkeys]
        · rcases heng : engine m (if cfg.unknown = .uexclude then
              d.filter (fun p => p.1 ∈ get_model_field_names_with_aliases m) else d)
            with es | inst
          · simp only [do_load_single, hpre, List.foldl_nil, hcm, hpm, if_neg hraise,
              hpt, Bool.false_eq_true, if_false, heng] at herr
            simp only [Except.error.injEq] at herr
            subst herr
            by_cases hde : d.isEmpty
            · have hdnil : d = [] := by simpa [List.isEmpty_iff] using hde
              subst hdnil
              simp only [convert_pydantic_errors]
              constructor <;> intro k hk <;> rw [show (if cfg.unknown = .uexclude then
                  List.filter (fun p => decide (p.1 ∈ get_model_field_names_with_aliases m)) []
                  else ([] : List (String × Val))) = [] from by split <;> rfl] at hk <;>
                simp [dkeys] at hk
            · simp only [hde, Bool.false_eq_true, if_false] at *
              exact convert_pydantic_errors_disjoint es m d
                (fun p hp => (hm m hcm p hp).1) (fun p hp => (hm m hcm p hp).2)
          · simp only [do_load_single, hpre, List.foldl_nil, hcm, hpm, if_neg hraise,
              hpt, Bool.false_eq_true, if_false, heng] at herr
            have hv := post_validate_steps_error_validData _ _ _ _ _ herr
            rw [hv]
            simp [dkeys]

theorem do_load_error_disjoint
    (cfg : SchemaCfg)
    (engine : PModel → List (String × Val) → Except (List EngineError) (List (String × Val)))
    (d : List (String × Val)) (e : BridgeError)
    (hm : ∀ m, cfg.model = some m → ∀ p ∈ m.fields, '.' ∉ p.1.data ∧ p.1 ≠ "_schema")
    (herr : do_load_single cfg engine d = .error e) :
    ∀ k ∈ dkeys e.validData, k ∉ dkeys e.messages := by
  rcases hcm : cfg.model with _ | m
  · simp only [do_load_single, hcm] at herr
    have hv := post_validate_steps_error_validData _ _ _ _ _ herr
    rw [hv]
    simp [dkeys]
  · simp only [do_load_single, hcm] at herr
    generalize cfg.preLoad.foldl (fun d f => f d) d = pd at herr
    by_cases hraise : cfg.unknown = .uraise ∧
        ((dkeys pd).filter (fun k => k ∉ get_model_field_names_with_aliases m)) ≠ []
    · rw [if_pos hraise] at herr
      simp only [Except.error.injEq] at herr
      subst herr
      simp [dkeys]
    · rw [if_neg hraise] at herr
      rcases hpm : cfg.partialMode with _ | p
      · rcases heng : engine m (if cfg.unknown = .uexclude then
            pd.filter (fun p => p.1 ∈ get_model_field_names_with_aliases m) else pd)
          with es | inst
        · simp only [hpm, heng] at herr
          simp only [Except.error.injEq] at herr
          subst herr
          exact (convert_pydantic_errors_disjoint es m _
            (fun p hp => (hm m hcm p hp).1) (fun p hp => (hm m hcm p hp).2)).1
        · simp only [hpm, heng] at herr
          have hv := post_validate_steps_error_validData _ _ _ _ _ herr
          rw [hv]
          simp [dkeys]
      · by_cases hpt : p.truthy = true
        · rcases hvp : validatePartial m (engine m) (if cfg.unknown = .uexclude then
              pd.filter (fun p => p.1 ∈ get_model_field_names_with_aliases m) else pd) p d
            with evp | vd2
          · simp only [hpm, hpt, if_true, hvp, Except.map] at herr
            simp only [Except.error.injEq] at herr
            subst herr
            exact (validate_partial_error_disjoint m (engine m) _ p d _ hvp).1
          · simp only [hpm, hpt, if_true, hvp, Except.map] at herr
            have hv := post_validate_steps_error_validData _ _ _ _ _ herr
            rw [hv]
            simp [dkeys]
        · rcases heng : engine m (if cfg.unknown = .uexclude then
              pd.filter (fun p => p.1 ∈ get_model_field_names_with_aliases m) else pd)
            with es | inst
          · simp only [hpm, hpt, Bool.false_eq_true, if_false, heng] at herr
            simp only [Except.error.injEq] at herr
            subst herr
            exact (convert_pydantic_errors_disjoint es m _
              (fun p hp => (hm m hcm p hp).1) (fun p hp => (hm m hcm p hp).2)).1
          · simp only [hpm, hpt, Bool.false_eq_true, if_false, heng] at herr
            have hv := post_validate_steps_error_validData _ _ _ _ _ herr
            rw [hv]
            simp [dkeys]

/-- C4 (corrected): every Bridge Validation Error a failed load raises —
whether from engine-A error translation (`convert_pydantic_errors`), from
the partial-mode missing-field check, from the partial-mode engine-failure
path, from the unknown-policy step, or from the validator step — has
`valid_data` keys disjoint from its message keys, with or without
registered hooks; and, for loads with no pre-load hooks, every
`valid_data` key was present in the load's input mapping (with a pre-load
hook the keys come from the hook-processed mapping instead, see the
counterexample).  Field names are assumed not to contain a dot and not to
equal the reserved `_schema` key, which the validation engine guarantees
since field names are Python identifiers. -/
theorem C4_error_valid_data_disjoint
    (cfg : SchemaCfg)
    (engine : PModel → List (String × Val) → Except (List EngineError) (List (String × Val)))
    (d : List (String × Val)) (e : BridgeError)
    (hm : ∀ m, cfg.model = some m → ∀ p ∈ m.fields, '.' ∉ p.1.data ∧ p.1 ≠ "_schema")
    (herr : do_load_single cfg engine d = .error e) :
    (∀ k ∈ dkeys e.validData, k ∉ dkeys e.messages) ∧
    (cfg.preLoad = [] → ∀ k ∈ dkeys e.validData, k ∈ dkeys d) :=
  ⟨do_load_error_disjoint cfg engine d e hm herr,
   fun hpre => (do_load_error_valid_sub cfg engine d e hpre hm herr).2⟩

theorem C4_error_valid_data_disjoint_witness :
    (∀ k ∈ dkeys [("name", Val.vstr "A")],
      k ∉ dkeys [("age", ["Missing data for required field."])]) ∧
    (∀ k ∈ dkeys [("name", Val.vstr "A")], k ∈ dkeys [("name", Val.vstr "A")]) := by
  have h := C4_error_valid_data_disjoint
    { model := some mC2, partialMode := some (.plist ["bio"]) } (validateModel [])
    [("name", .vstr "A")]
    ⟨[("age", ["Missing data for required field."])],
      .vdict [("name", .vstr "A")], [("name", .vstr "A")]⟩
    (by
      intro m hmeq p hp
      injection hmeq with hmeq2
      subst hmeq2
      exact (by decide : ∀ q ∈ mC2.fields, '.' ∉ q.1.data ∧ q.1 ≠ "_schema") p hp)
    (by
      simp [do_load_single, validatePartial, partialFields, PartialArg.truthy,
        Except.map, get_model_field_names_with_aliases, dkeys, alookup, mC2])
  exact ⟨h.1, h.2 rfl⟩

/-- A pre-load hook that injects the declared field `name` into the data,
as a registered `@pre_load` method may. -/
def hookC4 : List (String × Val) → List (String × Val) :=
  fun l => l ++ [("name", .vstr "A")]

def cfgC4 : SchemaCfg :=
  { model := some mC2, partialMode := some (.plist ["bio"]), preLoad := [hookC4] }

theorem C4_counterexample :
    do_load_single cfgC4 (validateModel []) [] =
      .error ⟨[("age", ["Missing data for required field."])],
        .vdict [("name", Val.vstr "A")], [("name", Val.vstr "A")]⟩ ∧
    "name" ∈ dkeys [("name", Val.vstr "A")] ∧
    "name" ∉ dkeys ([] : List (String × Val)) := by
  refine ⟨?_, by simp [dkeys], by simp [dkeys]⟩
  simp [do_load_single, cfgC4, hookC4, validatePartial, partialFields, PartialArg.truthy,
    Except.map, get_model_field_names_with_aliases, dkeys, alookup, mC2]

def plainCfg (m : PModel) (u : UnknownPolicy) (ri : Bool) : SchemaCfg :=
  { model := some m, unknown := u, returnInstance := ri }

theorem validateModel_fold_errors_nil (env : Env) (m : PModel) (d : List (String × Val))
    (fields : List (String × PFieldInfo)) (acc : List (String × Val) × List EngineError)
    (h : (fields.foldl (fun (acc : List (String × Val) × List EngineError) p =>
      let key := p.2.aliasName.getD p.1
      match alookup d key with
      | some v =>
        match pydCoerce env p.2.annot v with
        | some v1 => (acc.1 ++ [(p.1, v1)], acc.2)
        | none => (acc.1, acc.2 ++ [⟨[key], "Invalid value", "value_error"⟩])
      | none =>
        match p.2.default with
        | some dv => (acc.1 ++ [(p.1, dv)], acc.2)
        | none =>
          match p.2.defaultFactory with
          | some fv => (acc.1 ++ [(p.1, fv)], acc.2)
          | none => (acc.1, acc.2 ++ [⟨[key], "Field required", "missing"⟩])) acc).2.isEmpty) :
    acc.2 = [] ∧
    dkeys (fields.foldl (fun (acc : List (String × Val) × List EngineError) p =>
      let key := p.2.aliasName.getD p.1
      match alookup d key with
      | some v =>
        match pydCoerce env p.2.annot v with
        | some v1 => (acc.1 ++ [(p.1, v1)], acc.2)
        | none => (acc.1, acc.2 ++ [⟨[key], "Invalid value", "value_error"⟩])
      | none =>
        match p.2.default with
        | some dv => (acc.1 ++ [(p.1, dv)], acc.2)
        | none =>
          match p.2.defaultFactory with
          | some fv => (acc.1 ++ [(p.1, fv)], acc.2)
          | none => (acc.1, acc.2 ++ [⟨[key], "Field required", "missing"⟩])) acc).1 =
      dkeys acc.1 ++ fields.map Prod.fst := by
  induction fields generalizing acc with
  | nil =>
    simp only [List.foldl_nil] at h ⊢
    refine ⟨by simpa [List.isEmpty_iff] using h, by simp⟩
  | cons p rest ih =>
    rw [List.foldl_cons] at h ⊢
    rcases halo : alookup d (p.2.aliasName.getD p.1) with _ | v
    · simp only [halo] at h ⊢
      rcases hdef : p.2.default with _ | dv
      · simp only [hdef] at h ⊢
        rcases hfac : p.2.defaultFactory with _ | fv
        · simp only [hfac] at h ⊢
          obtain ⟨hacc, _⟩ := ih _ h
          exact absurd hacc (by simp)
        · simp only [hfac] at h ⊢
          obtain ⟨hacc, hkeys⟩ := ih _ h
          refine ⟨by simpa using hacc, ?_⟩
          rw [hkeys]
          simp [dkeys]
      · simp only [hdef] at h ⊢
        obtain ⟨hacc, hkeys⟩ := ih _ h
        refine ⟨by simpa using hacc, ?_⟩
        rw [hkeys]
        simp [dkeys]
    · simp only [halo] at h ⊢
      rcases hco : pydCoerce env p.2.annot v with _ | v1
      · simp only [hco] at h ⊢
        obtain ⟨hacc, _⟩ := ih _ h
        exact absurd hacc (by simp)
      · simp only [hco] at h ⊢
        obtain ⟨hacc, hkeys⟩ := ih _ h
        refine ⟨by simpa using hacc, ?_⟩
        rw [hkeys]
        simp [dkeys]

theorem validateModel_ok_keys (env : Env) (m : PModel) (d inst : List (String × Val))
    (h : validateModel env m d = .ok inst) : dkeys inst = m.fields.map Prod.fst := by
  rw [validateModel] at h
  split at h
  · rename_i hemp
    cases h
    have := validateModel_fold_errors_nil env m d m.fields ([], []) hemp
    simpa [dkeys] using this.2
  · cases h

theorem plainCfg_model (m : PModel) (u : UnknownPolicy) (ri : Bool) :
    (plainCfg m u ri).model = some m := rfl

theorem plainCfg_unknown (m : PModel) (u : UnknownPolicy) (ri : Bool) :
    (plainCfg m u ri).unknown = u := rfl

theorem plainCfg_partialMode (m : PModel) (u : UnknownPolicy) (ri : Bool) :
    (plainCfg m u ri).partialMode = none := rfl

theorem plainCfg_preLoad (m : PModel) (u : UnknownPolicy) (ri : Bool) :
    (plainCfg m u ri).preLoad = [] := rfl

def mC1 : PModel := ⟨[("a", { annot := .intT })], []⟩

def dC1 : List (String × Val) := [("x", .vint 1)]

theorem dkeys_filter_fst (d : List (String × Val)) (fns : List String) :
    dkeys (d.filter (fun p => p.1 ∈ fns)) = (dkeys d).filter (fun k => k ∈ fns) := by
  induction d with
  | nil => rfl
  | cons p t ih =>
    by_cases hp : p.1 ∈ fns <;> simp [dkeys, hp, List.filter_cons] <;>
      simpa [dkeys] using ih

/-- C1: the unknown-field policy partitions the input keys deterministically:
`raise` rejects via the unknown step iff some input key lies outside the
declared names∪aliases set, reporting one "Unknown field." message per
unknown key all together (and otherwise behaves like the other policies,
accepting whenever the engine accepts); `exclude` passes to Engine A
exactly the input keys intersected with declared names/aliases (and the
result depends on the engine only through its value at that filtered
dict); `include` returns a mapping whose key set is exactly the declared
field names union all original unknown keys. -/
theorem C1_unknown_policy_partition
    (env : Env) (m : PModel) (d : List (String × Val)) (ri : Bool)
    (engine engine' : PModel → List (String × Val) →
      Except (List EngineError) (List (String × Val))) :
    ((dkeys d).filter (fun k => k ∉ get_model_field_names_with_aliases m) ≠ [] →
      do_load_single (plainCfg m .uraise ri) engine d =
        .error ⟨((dkeys d).filter
            (fun k => k ∉ get_model_field_names_with_aliases m)).map
            (fun k => (k, ["Unknown field."])), .vdict d, []⟩) ∧
    ((dkeys d).filter (fun k => k ∉ get_model_field_names_with_aliases m) = [] →
      (∀ inst, engine m d = .ok inst →
        do_load_single (plainCfg m .uraise ri) engine d =
          .ok (if ri then .instR inst else .dictR inst)) ∧
      (∀ u, do_load_single (plainCfg m u ri) engine d =
        do_load_single (plainCfg m .uraise ri) engine d)) ∧
    (dkeys (d.filter (fun p => p.1 ∈ get_model_field_names_with_aliases m)) =
      (dkeys d).filter (fun k => k ∈ get_model_field_names_with_aliases m)) ∧
    (engine m (d.filter (fun p => p.1 ∈ get_model_field_names_with_aliases m)) =
        engine' m (d.filter (fun p => p.1 ∈ get_model_field_names_with_aliases m)) →
      do_load_single (plainCfg m .uexclude ri) engine d =
        do_load_single (plainCfg m .uexclude ri) engine' d) ∧
    (∀ inst, validateModel env m d = .ok inst →
      do_load_single (plainCfg m .uinclude false) (validateModel env) d =
        .ok (.dictR (inst ++
          d.filter (fun p => p.1 ∉ get_model_field_names_with_aliases m))) ∧
      ∀ k, (k ∈ dkeys (inst ++
          d.filter (fun p => p.1 ∉ get_model_field_names_with_aliases m)) ↔
        k ∈ m.fields.map Prod.fst ∨
          (k ∈ dkeys d ∧ k ∉ get_model_field_names_with_aliases m))) := by
  refine ⟨?_, ?_, ?_, ?_, ?_⟩
  · intro hne
    simp only [do_load_single, plainCfg_model, plainCfg_unknown, plainCfg_partialMode,
      plainCfg_preLoad, List.foldl_nil]
    rw [if_pos ⟨trivial, hne⟩]
  · intro hemp
    have hnex : ¬∃ x ∈ dkeys d, x ∉ get_model_field_names_with_aliases m := by
      rintro ⟨x, hx, hnot⟩
      have hmem : x ∈ (dkeys d).filter
          (fun k => k ∉ get_model_field_names_with_aliases m) :=
        List.mem_filter.mpr ⟨hx, by simpa using hnot⟩
      rw [hemp] at hmem
      simp at hmem
    have hall : ∀ p ∈ d, p.1 ∈ get_model_field_names_with_aliases m := by
      intro p hp
      by_contra hnot
      have hmem : p.1 ∈ (dkeys d).filter
          (fun k => k ∉ get_model_field_names_with_aliases m) :=
        List.mem_filter.mpr ⟨List.mem_map.mpr ⟨p, hp, rfl⟩, by simpa using hnot⟩
      rw [hemp] at hmem
      simp at hmem
    have hfd : d.filter (fun p => p.1 ∈ get_model_field_names_with_aliases m) = d :=
      List.filter_eq_self.mpr (fun p hp => by simpa using hall p hp)
    have hfilter2 : d.filter
        (fun p => !decide (p.1 ∈ get_model_field_names_with_aliases m)) = [] := by
      rw [List.filter_eq_nil_iff]
      intro p hp
      simpa using hall p hp
    constructor
    · intro inst hinst
      cases ri <;>
        simp [do_load_single, plainCfg, post_validate_steps, run_validators,
          hinst, hnex]
    · intro u
      cases u with
      | uraise => rfl
      | uexclude =>
        rcases heng : engine m d with es | inst <;>
          simp [do_load_single, plainCfg, hfd, hnex, heng] <;> rfl
      | uinclude =>
        rcases heng : engine m d with es | inst <;>
          simp [do_load_single, plainCfg, hnex, heng, hfilter2, List.append_nil] <;>
            rfl
  · exact dkeys_filter_fst d (get_model_field_names_with_aliases m)
  · intro h
    simp [do_load_single, plainCfg, h]
  · intro inst hinst
    have hkeys := validateModel_ok_keys env m d inst hinst
    constructor
    · simp [do_load_single, plainCfg, post_validate_steps, run_validators, hinst]
    · intro k
      simp only [dkeys, List.map_append, List.mem_append, List.mem_map,
        List.mem_filter, decide_eq_true_eq] at hkeys ⊢
      have hinstk : (∃ a ∈ inst, a.1 = k) ↔ (∃ a ∈ m.fields, a.1 = k) := by
        constructor
        · rintro ⟨a, ha, hak⟩
          exact List.mem_map.mp (hkeys ▸ List.mem_map.mpr ⟨a, ha, hak⟩)
        · rintro ⟨a, ha, hak⟩
          exact List.mem_map.mp (hkeys.symm ▸ List.mem_map.mpr ⟨a, ha, hak⟩)
      rw [hinstk]
      constructor
      · rintro (hk | ⟨p, ⟨hp, hnot⟩, hpk⟩)
        · exact Or.inl hk
        · exact Or.inr ⟨⟨p, hp, hpk⟩, by rw [← hpk]; simpa using hnot⟩
      · rintro (hk | ⟨⟨p, hp, hpk⟩, hnot⟩)
        · exact Or.inl hk
        · exact Or.inr ⟨p, ⟨hp, by rw [hpk]; simpa using hnot⟩, hpk⟩

theorem C1_unknown_policy_partition_witness :
    (dkeys dC1).filter (fun k => k ∉ get_model_field_names_with_aliases mC1) ≠ [] ∧
    do_load_single (plainCfg mC1 .uraise false) (validateModel []) dC1 =
      .error ⟨((dkeys dC1).filter
          (fun k => k ∉ get_model_field_names_with_aliases mC1)).map
          (fun k => (k, ["Unknown field."])), .vdict dC1, []⟩ :=
  ⟨by decide,
    (C1_unknown_policy_partition [] mC1 dC1 false (validateModel [])
      (validateModel [])).1 (by decide)⟩

/-- Environment hygiene for the round-trip: every model has distinct
declared field names, distinct wire keys (`alias` when declared, else the
field name — what keys the dump output and the engine lookups use), and
no computed fields. -/
def EnvOK (env : Env) : Prop :=
  ∀ p ∈ env, (p.2.fields.map Prod.fst).Nodup ∧
    (p.2.fields.map (fun q => q.2.aliasName.getD q.1)).Nodup ∧
    p.2.computed = []

/-- No field of any model declares an alias.  Under this restriction the
recursion-guard degradation to `Raw` is harmless (a degraded nested value
is name-keyed, and the engine also looks names up), so self-referential
models round-trip; the complementary `stratifiedEnv` regime admits
aliases but excludes reference cycles. -/
def aliasFreeEnv (env : Env) : Prop :=
  ∀ p ∈ env, ∀ q ∈ p.2.fields, q.2.aliasName = none

theorem map_id_of_mem {α : Type} (l : List α) (f : α → α)
    (h : ∀ x ∈ l, f x = x) : l.map f = l := by
  induction l with
  | nil => rfl
  | cons a t ih =>
    simp only [List.map_cons, h a (List.mem_cons_self a t)]
    rw [ih (fun x hx => h x (List.mem_cons_of_mem a hx))]

theorem mapM_loop_eq_some {α β : Type} (f : α → Option β) :
    ∀ (l : List α) (r : List β) (acc : List β), l.length = r.length →
    (∀ i (h1 : i < l.length) (h2 : i < r.length), f l[i] = some r[i]) →
    List.mapM.loop f l acc = some (acc.reverse ++ r) := by
  intro l
  induction l with
  | nil =>
    intro r acc hlen _
    cases r with
    | nil => simp [List.mapM.loop]
    | cons b rt => simp at hlen
  | cons a t ih =>
    intro r acc hlen hidx
    cases r with
    | nil => simp at hlen
    | cons b rt =>
      have h0 : f a = some b := by
        have := hidx 0 (by simp) (by simp)
        simpa using this
      have htail := ih rt (b :: acc) (by simpa using hlen) (fun i hi1 hi2 => by
        have := hidx (i + 1) (by simpa using hi1) (by simpa using hi2)
        simpa using this)
      simp [List.mapM.loop, h0, htail]

theorem mapM_eq_some_idx {α β : Type} (f : α → Option β)
    (l : List α) (r : List β) (hlen : l.length = r.length)
    (hidx : ∀ i (h1 : i < l.length) (h2 : i < r.length), f l[i] = some r[i]) :
    l.mapM f = some r := by
  have := mapM_loop_eq_some f l r [] hlen hidx
  simpa [List.mapM] using this

theorem aligned_alookup_idx {β : Type} :
    ∀ (fl : List (String × β)) (d : List (String × Val)),
    fl.length = d.length →
    (∀ i (h1 : i < fl.length) (h2 : i < d.length), (fl[i]).1 = (d[i]).1) →
    ((fl.map Prod.fst).Nodup) →
    ∀ i (h1 : i < fl.length) (h2 : i < d.length),
      alookup d (fl[i]).1 = some (d[i]).2 := by
  intro fl
  induction fl with
  | nil => intro d _ _ _ i h1; simp at h1
  | cons p ft ih =>
    intro d hlen halign hnodup i h1 h2
    cases d with
    | nil => simp at hlen
    | cons q dt =>
      have hpq : p.1 = q.1 := by
        have := halign 0 (by simp) (by simp)
        simpa using this
      have hco : p.1 ∉ ft.map Prod.fst ∧ (ft.map Prod.fst).Nodup := by
        have hcons : (p.1 :: ft.map Prod.fst).Nodup := by simpa using hnodup
        exact ⟨(List.nodup_cons.mp hcons).1, (List.nodup_cons.mp hcons).2⟩
      cases i with
      | zero =>
        simp only [List.getElem_cons_zero, alookup, hpq]
        simp
      | succ j =>
        have hj1 : j < ft.length := by simpa using h1
        have hj2 : j < dt.length := by simpa using h2
        have hne : q.1 ≠ (ft[j]).1 := by
          intro heq
          have hmem : (ft[j]).1 ∈ ft.map Prod.fst :=
            List.mem_map.mpr ⟨ft[j], List.getElem_mem hj1, rfl⟩
          rw [← hpq] at heq
          exact hco.1 (heq ▸ hmem)
        have htailalign : ∀ i (hi1 : i < ft.length) (hi2 : i < dt.length),
            (ft[i]).1 = (dt[i]).1 := fun i hi1 hi2 => by
          have := halign (i + 1) (by simpa using hi1) (by simpa using hi2)
          simpa using this
        simp only [List.getElem_cons_succ, alookup, if_neg hne]
        exact ih dt (by simpa using hlen) htailalign hco.2 j hj1 hj2

theorem aligned_dkeys {β : Type} :
    ∀ (fl : List (String × β)) (d : List (String × Val)),
    fl.length = d.length →
    (∀ i (h1 : i < fl.length) (h2 : i < d.length), (fl[i]).1 = (d[i]).1) →
    dkeys d = fl.map Prod.fst := by
  intro fl
  induction fl with
  | nil =>
    intro d hlen _
    cases d with
    | nil => rfl
    | cons q dt => simp at hlen
  | cons p ft ih =>
    intro d hlen halign
    cases d with
    | nil => simp at hlen
    | cons q dt =>
      have hpq : p.1 = q.1 := by
        have := halign 0 (by simp) (by simp)
        simpa using this
      have htail : dkeys dt = ft.map Prod.fst := by
        apply ih dt (by simpa using hlen)
        intro i hi1 hi2
        have := halign (i + 1) (by simpa using hi1) (by simpa using hi2)
        simpa using this
      simp only [dkeys, List.map_cons] at htail ⊢
      rw [← hpq, htail]

/-- Engine A coercion maps `None` either to a failure or to `None` itself,
for every annotation (no annotation coerces `None` to a different value). -/
theorem pydCoerce_vnone (env : Env) : (t : PType) →
    pydCoerce env t .vnone = none ∨ pydCoerce env t .vnone = some .vnone
  | .noneT => Or.inr (by simp [pydCoerce])
  | .intT => Or.inl (by simp [pydCoerce])
  | .strT => Or.inl (by simp [pydCoerce])
  | .boolT => Or.inl (by simp [pydCoerce])
  | .literalT vals => by
    by_cases h : vals.any (vbeq .vnone) <;> simp [pydCoerce, h]
  | .unionT args => by
    have hfold : ∀ (l : List {x // x ∈ args}) (acc : Option Val),
        (acc = none ∨ acc = some .vnone) →
        (l.foldl (fun acc x => acc <|> pydCoerce env x.1 .vnone) acc = none ∨
         l.foldl (fun acc x => acc <|> pydCoerce env x.1 .vnone) acc = some .vnone) := by
      intro l
      induction l with
      | nil => intro acc h; simpa using h
      | cons x rest ih =>
        intro acc h
        apply ih
        rcases pydCoerce_vnone env x.1 with h1 | h1 <;> rcases h with h2 | h2 <;>
          simp [h1, h2, Option.orElse]
    have := hfold args.attach none (Or.inl rfl)
    simpa [pydCoerce] using this
  | .enumT cases => Or.inl (by simp [pydCoerce])
  | .modelT n => Or.inl (by simp [pydCoerce])
  | .listT arg => Or.inl (by simp [pydCoerce])
  | .dictT args => Or.inl (by simp [pydCoerce])
  | .setT arg => Or.inl (by simp [pydCoerce])
  | .tupleT args => Or.inl (by simp [pydCoerce])
  | .emailStrT => Or.inl (by simp [pydCoerce])
  | .anyUrlT => Or.inl (by simp [pydCoerce])
  | .ipT => Or.inl (by simp [pydCoerce])
  | .otherT => Or.inr (by simp [pydCoerce])
termination_by t => sizeOf t
decreasing_by
  all_goals simp_wf
  have := List.sizeOf_lt_of_mem x.2
  omega

/-- Serialization ignores the attribute bag of the top-level field (it
only dispatches on the field kind and recurses into sub-fields). -/
theorem maSerialize_mapAttrs (g : FieldAttrs → FieldAttrs) (f : MaField) (v : Val) :
    maSerialize (f.mapAttrs g) v = maSerialize f v := by
  cases f <;> cases v <;> simp [MaField.mapAttrs, maSerialize]

/-- Engine A coercion is the identity on well-typed (`model_dump`-shaped)
values: validation of a value already in plain shape succeeds and returns
it unchanged (field names distinct per `EnvOK`, aliases absent per
`aliasFreeEnv`). -/
theorem wt_pydCoerce_id (env : Env) (hE : EnvOK env) (hAF : aliasFreeEnv env) :
    ∀ (t : PType) (v : Val), wt env t v = true → pydCoerce env t v = some v := by
  intro t v
  induction t, v using wt.induct env with
  | case1 => intro _; simp [pydCoerce]
  | case2 n => intro _; simp [pydCoerce]
  | case3 s => intro _; simp [pydCoerce]
  | case4 b => intro _; simp [pydCoerce]
  | case5 vals v =>
    intro hwt
    have h : vals.any (vbeq v) = true := by simpa [wt] using hwt
    simp [pydCoerce, h]
  | case6 t1 =>
    intro hwt
    rcases pydCoerce_vnone env t1 with h | h <;>
      simp [pydCoerce, List.attach, List.attachWith, List.pmap, h, Option.orElse]
  | case7 t1 v hne ih1 =>
    intro hwt
    cases v with
    | vnone => exact absurd rfl hne
    | vint n =>
      simp only [wt, Bool.and_eq_true] at hwt
      have hc := ih1 hwt.2
      simp [pydCoerce, List.attach, List.attachWith, List.pmap, hc, Option.orElse]
    | vstr s =>
      simp only [wt, Bool.and_eq_true] at hwt
      have hc := ih1 hwt.2
      simp [pydCoerce, List.attach, List.attachWith, List.pmap, hc, Option.orElse]
    | vbool b =>
      simp only [wt, Bool.and_eq_true] at hwt
      have hc := ih1 hwt.2
      simp [pydCoerce, List.attach, List.attachWith, List.pmap, hc, Option.orElse]
    | vlist xs =>
      simp only [wt, Bool.and_eq_true] at hwt
      have hc := ih1 hwt.2
      simp [pydCoerce, List.attach, List.attachWith, List.pmap, hc, Option.orElse]
    | vdict d =>
      simp only [wt, Bool.and_eq_true] at hwt
      have hc := ih1 hwt.2
      simp [pydCoerce, List.attach, List.attachWith, List.pmap, hc, Option.orElse]
  | case8 n d m hn ih1 =>
    intro hwt
    obtain ⟨hnodup, hwire, hcomp⟩ := hE (n, m) (alookup_mem hn)
    have halias := hAF (n, m) (alookup_mem hn)
    simp only [wt, hn, Bool.and_eq_true, beq_iff_eq, List.all_eq_true] at hwt
    obtain ⟨hlen, hall⟩ := hwt
    have hall2 : ∀ (x : (String × PFieldInfo) × (String × Val)), x ∈ m.fields.zip d →
        x.1.1 = x.2.1 ∧ wt env x.1.2.annot x.2.2 = true := by
      intro x hx
      have := hall ⟨x, hx⟩ (List.mem_attach _ _)
      simpa using this
    have hzmem : ∀ i (h1 : i < m.fields.length) (h2 : i < d.length),
        (m.fields[i], d[i]) ∈ m.fields.zip d := by
      intro i h1 h2
      have hi : i < (m.fields.zip d).length := by
        simp only [List.length_zip]
        omega
      have := List.getElem_mem hi
      simpa [List.getElem_zip] using this
    have halignidx : ∀ i (h1 : i < m.fields.length) (h2 : i < d.length),
        (m.fields[i]).1 = (d[i]).1 := by
      intro i h1 h2
      exact (hall2 _ (hzmem i h1 h2)).1
    have hlook := aligned_alookup_idx m.fields d hlen halignidx hnodup
    simp only [pydCoerce, hn]
    refine Eq.trans (congrArg (Option.map Val.vdict)
      (mapM_eq_some_idx _ m.fields d hlen ?_)) rfl
    intro i h1 h2
    have halias_i : (m.fields[i]).2.aliasName = none :=
      halias _ (List.getElem_mem h1)
    have hcz := ih1 ⟨(m.fields[i], d[i]), hzmem i h1 h2⟩
      (hall2 _ (hzmem i h1 h2)).2
    have hpair : ((m.fields[i]).1, (d[i]).2) = d[i] :=
      Prod.ext (halignidx i h1 h2) rfl
    have hcz' : pydCoerce env (m.fields[i]).2.annot (d[i]).2 = some (d[i]).2 := by
      simpa using hcz
    split
    · rename_i v1 halo
      rw [halias_i, Option.getD_none, hlook i h1 h2] at halo
      obtain rfl : (d[i]).2 = v1 := by simpa using halo
      rw [hcz']
      simp [hpair]
    · rename_i halo
      rw [halias_i, Option.getD_none, hlook i h1 h2] at halo
      simp at halo
  | case9 n d hnone =>
    intro hwt
    simp [wt, hnone] at hwt
  | case10 t1 xs ih1 =>
    intro hwt
    simp only [wt, List.all_eq_true] at hwt
    have hpt : ∀ x ∈ xs, wt env t1 x = true := by
      intro x hx
      simpa using hwt ⟨x, hx⟩ (List.mem_attach _ _)
    simp only [pydCoerce]
    refine Eq.trans (congrArg (Option.map Val.vlist)
      (mapM_eq_some_idx _ xs.attach xs (by simp) ?_)) rfl
    intro i h1 h2
    have hm : xs[i] ∈ xs := List.getElem_mem h2
    simpa using ih1 ⟨xs[i], hm⟩ (hpt _ hm)
  | case11 xs =>
    intro _
    simp only [pydCoerce]
    refine Eq.trans (congrArg (Option.map Val.vlist)
      (mapM_eq_some_idx _ xs.attach xs (by simp) ?_)) rfl
    intro i h1 h2
    simp [pydCoerce]
  | case12 entries =>
    intro _
    simp [pydCoerce]
  | case13 kt vt d ih1 =>
    intro hwt
    simp only [wt, Bool.and_eq_true, List.all_eq_true] at hwt
    obtain ⟨hkt, hall⟩ := hwt
    have hkt' : kt = .strT := by
      cases kt <;> simp [PType.isStrT] at hkt ⊢
    subst hkt'
    have hpt : ∀ x ∈ d, wt env vt x.2 = true := by
      intro x hx
      simpa using hall ⟨x, hx⟩ (List.mem_attach _ _)
    simp only [pydCoerce]
    refine Eq.trans (congrArg (Option.map Val.vdict)
      (mapM_eq_some_idx _ d.attach d (by simp) ?_)) rfl
    intro i h1 h2
    have hm : d[i] ∈ d := List.getElem_mem h2
    have hcz := ih1 ⟨d[i], hm⟩ (hpt _ hm)
    simp [pydCoerce, hcz, Option.bind]
  | case14 xs =>
    intro _
    simp [pydCoerce]
  | case15 a rest xs ih1 =>
    intro hwt
    simp only [wt, Bool.and_eq_true, beq_iff_eq, List.all_eq_true] at hwt
    obtain ⟨hlen, hall⟩ := hwt
    have hlen' : rest.length + 1 = xs.length := by simpa using hlen
    have hzmem : ∀ i (h1 : i < (a :: rest).length) (h2 : i < xs.length),
        ((a :: rest)[i], xs[i]) ∈ (a :: rest).zip xs := by
      intro i h1 h2
      have hi : i < ((a :: rest).zip xs).length := by
        simp only [List.length_zip, List.length_cons]
        omega
      have := List.getElem_mem hi
      simpa [List.getElem_zip] using this
    have hpt : ∀ i (h1 : i < (a :: rest).length) (h2 : i < xs.length),
        pydCoerce env (a :: rest)[i] xs[i] = some xs[i] := by
      intro i h1 h2
      have hw := hall ⟨((a :: rest)[i], xs[i]), hzmem i h1 h2⟩ (List.mem_attach _ _)
      exact ih1 ⟨((a :: rest)[i], xs[i]), hzmem i h1 h2⟩ (by simpa using hw)
    simp only [pydCoerce, if_pos hlen]
    refine Eq.trans (congrArg (Option.map Val.vlist)
      (mapM_eq_some_idx _ ((a :: rest).zip xs).attach xs
        (by simp only [List.length_attach, List.length_zip, List.length_cons]; omega) ?_)) rfl
    intro i h1 h2
    have hi1 : i < (a :: rest).length := by
      simp only [List.length_attach, List.length_zip, List.length_cons] at h1
      simp only [List.length_cons]
      omega
    simp only [List.getElem_attach, List.getElem_zip]
    exact hpt i hi1 h2
  | case16 s => intro _; simp [pydCoerce]
  | case17 s => intro _; simp [pydCoerce]
  | case18 s => intro _; simp [pydCoerce]
  | case19 v => intro _; simp [pydCoerce]
  | case20 t1 xs ih1 =>
    intro hwt
    simp only [wt, List.all_eq_true] at hwt
    have hpt : ∀ x ∈ xs, wt env t1 x = true := by
      intro x hx
      simpa using hwt ⟨x, hx⟩ (List.mem_attach _ _)
    simp only [pydCoerce]
    refine Eq.trans (congrArg (Option.map Val.vlist)
      (mapM_eq_some_idx _ xs.attach xs (by simp) ?_)) rfl
    intro i h1 h2
    have hm : xs[i] ∈ xs := List.getElem_mem h2
    simpa using ih1 ⟨xs[i], hm⟩ (hpt _ hm)
  | case21 xs =>
    intro _
    simp only [pydCoerce]
    refine Eq.trans (congrArg (Option.map Val.vlist)
      (mapM_eq_some_idx _ xs.attach xs (by simp) ?_)) rfl
    intro i h1 h2
    simp [pydCoerce]
  | case22 t v =>
    intro hwt
    rw [wt.eq_def] at hwt
    split at hwt <;> simp_all

/-- The type mapper never sets `data_key` (only `convert_pydantic_field`'s
alias handling does). -/
theorem ttmf_dataKey_none (env : Env) : (proc : List String) → (t : PType) →
    (type_to_marshmallow_field env proc t).attrs.dataKey = none
  | proc, .noneT => by simp [type_to_marshmallow_field, MaField.attrs]
  | proc, .intT => by simp [type_to_marshmallow_field, MaField.attrs]
  | proc, .strT => by simp [type_to_marshmallow_field, MaField.attrs]
  | proc, .boolT => by simp [type_to_marshmallow_field, MaField.attrs]
  | proc, .literalT vals => by simp [type_to_marshmallow_field, MaField.attrs]
  | proc, .unionT args => by
    simp only [type_to_marshmallow_field]
    split
    · rename_i t1 h
      rw [attrs_mapAttrs]
      have ht1 : t1 ∈ args := by
        have : t1 ∈ args.filter (fun a => !a.isNoneT) := by
          rw [h]; exact List.mem_singleton_self _
        exact List.mem_of_mem_filter this
      simpa using ttmf_dataKey_none env proc t1
    · simp [MaField.attrs]
  | proc, .enumT cases => by simp [type_to_marshmallow_field, MaField.attrs]
  | proc, .modelT n => by
    simp only [type_to_marshmallow_field]
    split
    · simp [MaField.attrs]
    · split <;> simp [MaField.attrs]
  | proc, .listT arg => by
    cases arg <;> simp [type_to_marshmallow_field, MaField.attrs]
  | proc, .dictT args => by
    rcases args with _ | ⟨kt, vt⟩ <;> simp [type_to_marshmallow_field, MaField.attrs]
  | proc, .setT arg => by
    cases arg <;> simp [type_to_marshmallow_field, MaField.attrs]
  | proc, .tupleT args => by
    cases args <;> simp [type_to_marshmallow_field, MaField.attrs]
  | proc, .emailStrT => by simp [type_to_marshmallow_field, MaField.attrs]
  | proc, .anyUrlT => by simp [type_to_marshmallow_field, MaField.attrs]
  | proc, .ipT => by simp [type_to_marshmallow_field, MaField.attrs]
  | proc, .otherT => by simp [type_to_marshmallow_field, MaField.attrs]
termination_by proc t => (freeModels env proc, sizeOf t)
decreasing_by
  simp_wf
  apply Prod.Lex.right
  have := List.sizeOf_lt_of_mem ht1
  omega

/-- Without an alias, `convert_pydantic_field`'s attribute pass leaves
`data_key` unchanged. -/
theorem applyFieldInfoAttrs_dataKey (fi : PFieldInfo) (f : MaField)
    (h : fi.aliasName = none) :
    (applyFieldInfoAttrs fi f).attrs.dataKey = f.attrs.dataKey := by
  simp only [applyFieldInfoAttrs, h]
  rcases fi.default with _ | dv <;> rcases fi.defaultFactory with _ | fv <;>
    split <;> simp [attrs_mapAttrs]

/-- Serialization is unchanged by `convert_pydantic_field`'s attribute
pass (it only rewrites attribute bags). -/
theorem maSerialize_applyFieldInfoAttrs (fi : PFieldInfo) (f : MaField) (v : Val) :
    maSerialize (applyFieldInfoAttrs fi f) v = maSerialize f v := by
  simp only [applyFieldInfoAttrs]
  rcases fi.default with _ | dv <;> rcases fi.defaultFactory with _ | fv <;>
    rcases fi.aliasName with _ | al <;>
    split <;> simp [maSerialize_mapAttrs]

/-- Dumping an aligned plain mapping through a model's converted field
list reproduces the mapping, given per-field serialization identity. -/
theorem maDump_fields_id (env : Env) (m : PModel) (procInner : List String)
    (d : List (String × Val))
    (hlen : m.fields.length = d.length)
    (halign : ∀ i (h1 : i < m.fields.length) (h2 : i < d.length),
      (m.fields[i]).1 = (d[i]).1)
    (hnodup : (m.fields.map Prod.fst).Nodup)
    (halias : ∀ p ∈ m.fields, p.2.aliasName = none)
    (hser : ∀ i (h1 : i < m.fields.length) (h2 : i < d.length),
      maSerialize (type_to_marshmallow_field env procInner ((m.fields[i]).2.annot))
        ((d[i]).2) = (d[i]).2) :
    (m.fields.map (fun p => (p.1, applyFieldInfoAttrs p.2
        (type_to_marshmallow_field env procInner p.2.annot)))).map
      (fun p => (dataKeyOr p.1 p.2, maSerialize p.2 ((alookup d p.1).getD .vnone))) = d := by
  rw [List.map_map]
  have hlook := aligned_alookup_idx m.fields d hlen halign hnodup
  apply List.ext_getElem
  · simpa using hlen
  · intro i h1 h2
    have h1' : i < m.fields.length := by simpa using h1
    have halias_i : (m.fields[i]).2.aliasName = none :=
      halias _ (List.getElem_mem h1')
    simp only [List.getElem_map, Function.comp]
    have hdk : dataKeyOr (m.fields[i]).1 (applyFieldInfoAttrs (m.fields[i]).2
        (type_to_marshmallow_field env procInner (m.fields[i]).2.annot)) =
        (m.fields[i]).1 := by
      simp [dataKeyOr, applyFieldInfoAttrs_dataKey _ _ halias_i, ttmf_dataKey_none]
    rw [hdk, hlook i h1' h2]
    simp only [Option.getD_some, maSerialize_applyFieldInfoAttrs]
    rw [hser i h1' h2]
    exact Prod.ext (halign i h1' h2) rfl

theorem maSerialize_raw_id (a : FieldAttrs) (v : Val) : maSerialize (.raw a) v = v := by
  cases v <;> simp [maSerialize]

/-- Marshmallow serialization through the synthesized schema field is the
identity on well-typed (`model_dump`-shaped) values, for every state of
the recursion guard (field names distinct per `EnvOK`, aliases absent per
`aliasFreeEnv`). -/
theorem maSerialize_ttmf_id (env : Env) (hE : EnvOK env) (hAF : aliasFreeEnv env) :
    ∀ (t : PType) (v : Val), wt env t v = true →
    ∀ (processing : List String),
      maSerialize (type_to_marshmallow_field env processing t) v = v := by
  intro t v
  induction t, v using wt.induct env with
  | case1 => intro _ proc; simp [maSerialize]
  | case2 n => intro _ proc; simp [type_to_marshmallow_field, maSerialize]
  | case3 s => intro _ proc; simp [type_to_marshmallow_field, maSerialize]
  | case4 b => intro _ proc; simp [type_to_marshmallow_field, maSerialize]
  | case5 vals v =>
    intro _ proc
    simp only [type_to_marshmallow_field]
    exact maSerialize_raw_id _ _
  | case6 t1 =>
    intro _ proc
    simp [maSerialize]
  | case7 t1 v hne ih1 =>
    intro hwt proc
    simp only [wt, Bool.and_eq_true, Bool.not_eq_true'] at hwt
    simp only [type_to_marshmallow_field]
    split
    · rename_i t1' hft
      have hfilt : [t1, PType.noneT].filter (fun a => !a.isNoneT) = [t1] := by
        simp only [List.filter_cons, List.filter_nil, hwt.1, PType.isNoneT]
        simp
        exact hwt.1
      rw [hfilt] at hft
      obtain rfl : t1 = t1' := by simpa using hft
      rw [maSerialize_mapAttrs]
      exact ih1 hwt.2 proc
    · exact maSerialize_raw_id _ _
  | case8 n d m hn ih1 =>
    intro hwt proc
    obtain ⟨hnodup, hwire, hcomp⟩ := hE (n, m) (alookup_mem hn)
    have halias := hAF (n, m) (alookup_mem hn)
    simp only [wt, hn, Bool.and_eq_true, beq_iff_eq, List.all_eq_true] at hwt
    obtain ⟨hlen, hall⟩ := hwt
    have hall2 : ∀ (x : (String × PFieldInfo) × (String × Val)), x ∈ m.fields.zip d →
        x.1.1 = x.2.1 ∧ wt env x.1.2.annot x.2.2 = true := by
      intro x hx
      have := hall ⟨x, hx⟩ (List.mem_attach _ _)
      simpa using this
    have hzmem : ∀ i (h1 : i < m.fields.length) (h2 : i < d.length),
        (m.fields[i], d[i]) ∈ m.fields.zip d := by
      intro i h1 h2
      have hi : i < (m.fields.zip d).length := by
        simp only [List.length_zip]
        omega
      have := List.getElem_mem hi
      simpa [List.getElem_zip] using this
    have halignidx : ∀ i (h1 : i < m.fields.length) (h2 : i < d.length),
        (m.fields[i]).1 = (d[i]).1 := by
      intro i h1 h2
      exact (hall2 _ (hzmem i h1 h2)).1
    simp only [type_to_marshmallow_field]
    split
    · exact maSerialize_raw_id _ _
    · split
      · rename_i m' hl'
        rw [hn] at hl'
        obtain rfl : m = m' := by simpa using hl'
        have hcomp' : m.computed = [] := hcomp
        simp only [hcomp', List.map_nil, List.append_nil]
        simp only [maSerialize]
        simp only [List.attach, List.attachWith, List.map_pmap, List.pmap_eq_map]
        rw [maDump_fields_id env m (n :: proc) d hlen halignidx hnodup halias
          (fun i h1 h2 => ih1 ⟨(m.fields[i], d[i]), hzmem i h1 h2⟩
            (hall2 _ (hzmem i h1 h2)).2 (n :: proc))]
      · rename_i hl'
        rw [hn] at hl'
        cases hl'
  | case9 n d hnone =>
    intro hwt
    simp [wt, hnone] at hwt
  | case10 t1 xs ih1 =>
    intro hwt proc
    simp only [wt, List.all_eq_true] at hwt
    simp only [type_to_marshmallow_field]
    simp only [maSerialize]
    simp only [List.attach, List.attachWith, List.map_pmap, List.pmap_eq_map]
    rw [map_id_of_mem xs _ (fun x hx =>
      ih1 ⟨x, hx⟩ (by simpa using hwt ⟨x, hx⟩ (List.mem_attach _ _)) proc)]
  | case11 xs =>
    intro _ proc
    simp only [type_to_marshmallow_field]
    simp only [maSerialize]
    simp only [List.attach, List.attachWith, List.map_pmap, List.pmap_eq_map]
    rw [map_id_of_mem xs _ (fun x _ => maSerialize_raw_id _ x)]
  | case12 entries =>
    intro _ proc
    simp only [type_to_marshmallow_field]
    simp only [maSerialize]
    simp only [List.attach, List.attachWith, List.map_pmap, List.pmap_eq_map]
    rw [map_id_of_mem entries _ (fun x _ => by
      rw [maSerialize_raw_id]
    )]
  | case13 kt vt d ih1 =>
    intro hwt proc
    simp only [wt, Bool.and_eq_true, List.all_eq_true] at hwt
    obtain ⟨hkt, hall⟩ := hwt
    simp only [type_to_marshmallow_field]
    simp only [maSerialize]
    simp only [List.attach, List.attachWith, List.map_pmap, List.pmap_eq_map]
    rw [map_id_of_mem d _ (fun x hx => by
      rw [ih1 ⟨x, hx⟩ (by simpa using hall ⟨x, hx⟩ (List.mem_attach _ _)) proc]
    )]
  | case14 xs =>
    intro _ proc
    simp only [type_to_marshmallow_field]
    simp only [maSerialize]
    simp only [List.attach, List.attachWith, List.map_pmap, List.pmap_eq_map]
    rw [map_id_of_mem xs _ (fun x _ => maSerialize_raw_id _ x)]
  | case15 a rest xs ih1 =>
    intro hwt proc
    simp only [wt, Bool.and_eq_true, beq_iff_eq, List.all_eq_true] at hwt
    obtain ⟨hlen, hall⟩ := hwt
    have hlen' : rest.length + 1 = xs.length := by simpa using hlen
    have hzmem : ∀ i (h1 : i < (a :: rest).length) (h2 : i < xs.length),
        ((a :: rest)[i], xs[i]) ∈ (a :: rest).zip xs := by
      intro i h1 h2
      have hi : i < ((a :: rest).zip xs).length := by
        simp only [List.length_zip, List.length_cons]
        omega
      have := List.getElem_mem hi
      simpa [List.getElem_zip] using this
    simp only [type_to_marshmallow_field]
    simp only [maSerialize]
    simp only [List.attach, List.attachWith, List.map_pmap, List.pmap_eq_map]
    apply congrArg Val.vlist
    apply List.ext_getElem
    · simp only [List.length_map, List.length_zip, List.length_cons]
      omega
    · intro i h1 h2
      have hi1 : i < (a :: rest).length := by
        simp only [List.length_map, List.length_zip, List.length_cons] at h1
        simp only [List.length_cons]
        omega
      have hw := hall ⟨((a :: rest)[i], xs[i]), hzmem i hi1 h2⟩ (List.mem_attach _ _)
      have hser := ih1 ⟨((a :: rest)[i], xs[i]), hzmem i hi1 h2⟩ (by simpa using hw) proc
      simp only [List.getElem_map, List.getElem_zip]
      simpa using hser
  | case16 s => intro _ proc; simp [type_to_marshmallow_field, maSerialize]
  | case17 s => intro _ proc; simp [type_to_marshmallow_field, maSerialize]
  | case18 s => intro _ proc; simp [type_to_marshmallow_field, maSerialize]
  | case19 v =>
    intro _ proc
    simp only [type_to_marshmallow_field]
    exact maSerialize_raw_id _ _
  | case20 t1 xs ih1 =>
    intro hwt proc
    simp only [wt, List.all_eq_true] at hwt
    simp only [type_to_marshmallow_field]
    simp only [maSerialize]
    simp only [List.attach, List.attachWith, List.map_pmap, List.pmap_eq_map]
    rw [map_id_of_mem xs _ (fun x hx =>
      ih1 ⟨x, hx⟩ (by simpa using hwt ⟨x, hx⟩ (List.mem_attach _ _)) proc)]
  | case21 xs =>
    intro _ proc
    simp only [type_to_marshmallow_field]
    simp only [maSerialize]
    simp only [List.attach, List.attachWith, List.map_pmap, List.pmap_eq_map]
    rw [map_id_of_mem xs _ (fun x _ => maSerialize_raw_id _ x)]
  | case22 t v =>
    intro hwt
    rw [wt.eq_def] at hwt
    split at hwt <;> simp_all

theorem validateModel_fold_id (env : Env) (d : List (String × Val)) :
    ∀ (fl : List (String × PFieldInfo)) (r : List (String × Val))
      (acc : List (String × Val)),
    fl.length = r.length →
    (∀ i (h1 : i < fl.length) (h2 : i < r.length),
      (fl[i]).1 = (r[i]).1 ∧
      ∃ w, alookup d ((fl[i]).2.aliasName.getD (fl[i]).1) = some w ∧
        pydCoerce env (fl[i]).2.annot w = some ((r[i]).2)) →
    fl.foldl (fun (acc : List (String × Val) × List EngineError) p =>
      match alookup d (p.2.aliasName.getD p.1) with
      | some v =>
        match pydCoerce env p.2.annot v with
        | some v1 => (acc.1 ++ [(p.1, v1)], acc.2)
        | none => (acc.1, acc.2 ++ [⟨[p.2.aliasName.getD p.1], "Invalid value", "value_error"⟩])
      | none =>
        match p.2.default with
        | some dv => (acc.1 ++ [(p.1, dv)], acc.2)
        | none =>
          match p.2.defaultFactory with
          | some fv => (acc.1 ++ [(p.1, fv)], acc.2)
          | none => (acc.1, acc.2 ++ [⟨[p.2.aliasName.getD p.1], "Field required", "missing"⟩]))
      (acc, []) = (acc ++ r, []) := by
  intro fl
  induction fl with
  | nil =>
    intro r acc hlen _
    cases r with
    | nil => simp
    | cons b rt => simp at hlen
  | cons p ft ih =>
    intro r acc hlen hidx
    cases r with
    | nil => simp at hlen
    | cons b rt =>
      obtain ⟨hfst, w0, hlook0, hcz0⟩ := hidx 0 (by simp) (by simp)
      simp only [List.getElem_cons_zero] at hfst hlook0 hcz0
      have hpair : (p.1, b.2) = b := Prod.ext hfst rfl
      have htail := ih rt (acc ++ [b]) (by simpa using hlen) (fun i hi1 hi2 => by
        have := hidx (i + 1) (by simpa using hi1) (by simpa using hi2)
        simpa using this)
      simp only [List.foldl_cons, hlook0, hcz0, hpair]
      rw [htail]
      simp

theorem filterMap_always_some {α β : Type} (l : List α) (g : α → β)
    (f : α → Option β) (h : ∀ x ∈ l, f x = some (g x)) :
    l.filterMap f = l.map g := by
  induction l with
  | nil => rfl
  | cons a t ih =>
    simp only [List.filterMap_cons, h a (List.mem_cons_self a t), List.map_cons]
    rw [ih (fun x hx => h x (List.mem_cons_of_mem a hx))]


/-- Whether the model name `n` occurs syntactically inside an annotation
(through the containers the type mapper traverses, not through other
models' field sets). -/
def occursModel : PType → String → Bool
  | .unionT args, n => args.attach.any (fun x => occursModel x.1 n)
  | .modelT k, n => k == n
  | .listT (some t1), n => occursModel t1 n
  | .dictT (some (kt, vt)), n => occursModel kt n || occursModel vt n
  | .setT (some t1), n => occursModel t1 n
  | .tupleT (a :: rest), n => (a :: rest).attach.any (fun x => occursModel x.1 n)
  | _, _ => false
termination_by t _ => sizeOf t
decreasing_by
  all_goals simp_wf
  · have := List.sizeOf_lt_of_mem x.2
    omega
  · omega
  · omega
  · omega
  · omega
  · have := List.sizeOf_lt_of_mem x.2
    simp only [List.cons.sizeOf_spec] at this
    omega

/-- A ranking witnessing that model references never cycle: every model
name occurring in a field annotation of the model bound to `nm` ranks
strictly below `nm`.  Under such a ranking the `_processing_models`
recursion guard never fires, so no nested field degrades to `Raw`. -/
def stratifiedEnv (env : Env) (rank : String → Nat) : Prop :=
  ∀ p ∈ env, ∀ q ∈ p.2.fields, ∀ j, occursModel q.2.annot j = true → rank j < rank p.1

/-- `convert_pydantic_field`'s attribute pass sets `data_key` to the alias
when one is declared and leaves it unchanged otherwise. -/
theorem applyFieldInfoAttrs_dataKey2 (fi : PFieldInfo) (f : MaField) :
    (applyFieldInfoAttrs fi f).attrs.dataKey =
      (match fi.aliasName with
       | some al => some al
       | none => f.attrs.dataKey) := by
  simp only [applyFieldInfoAttrs]
  rcases fi.default with _ | dv <;> rcases fi.defaultFactory with _ | fv <;>
    rcases fi.aliasName with _ | al <;> split <;> simp [attrs_mapAttrs]

/-- The wire key a converted field dumps under: the declared alias, else
the attribute name. -/
theorem dataKeyOr_convert (env : Env) (nm : String) (fi : PFieldInfo) :
    dataKeyOr nm (convert_pydantic_field env fi) = fi.aliasName.getD nm := by
  simp only [dataKeyOr, convert_pydantic_field, applyFieldInfoAttrs_dataKey2,
    ttmf_dataKey_none]
  rcases fi.aliasName with _ | al <;> simp

/-- Likewise for the nested-schema field list built inside the type
mapper's model branch. -/
theorem dataKeyOr_applyFieldInfoAttrs (env : Env) (proc : List String)
    (nm : String) (fi : PFieldInfo) :
    dataKeyOr nm (applyFieldInfoAttrs fi (type_to_marshmallow_field env proc fi.annot)) =
      fi.aliasName.getD nm := by
  simp only [dataKeyOr, applyFieldInfoAttrs_dataKey2, ttmf_dataKey_none]
  rcases fi.aliasName with _ | al <;> simp

theorem map_congr_fn {α β : Type} (l : List α) (f g : α → β)
    (h : ∀ x ∈ l, f x = g x) : l.map f = l.map g := by
  induction l with
  | nil => rfl
  | cons a t ih =>
    simp only [List.map_cons, h a (List.mem_cons_self a t)]
    rw [ih (fun x hx => h x (List.mem_cons_of_mem a hx))]

theorem alookup_map_getElem {α : Type} (l : List α) (f : α → String × Val)
    (hnodup : ((l.map f).map Prod.fst).Nodup) (i : Nat) (h : i < l.length) :
    alookup (l.map f) ((f l[i]).1) = some ((f l[i]).2) := by
  have := aligned_alookup_idx (l.map f) (l.map f) rfl (fun j hj1 hj2 => rfl) hnodup
    i (by simpa using h) (by simpa using h)
  simpa [List.getElem_map] using this

/-- The key list of a dumped mapping: the converted fields dump one entry
per declared field, keyed by the wire key (alias or name). -/
theorem dumped_keys (env : Env) (m : PModel) (procInner : List String)
    (d : List (String × Val)) :
    ((m.fields.map (fun p => (p.1, applyFieldInfoAttrs p.2
        (type_to_marshmallow_field env procInner p.2.annot)))).map
      (fun p => (dataKeyOr p.1 p.2, maSerialize p.2 ((alookup d p.1).getD .vnone)))).map
        Prod.fst = m.fields.map (fun q => q.2.aliasName.getD q.1) := by
  simp only [List.map_map]
  apply map_congr_fn
  intro p _
  simp only [Function.comp]
  exact dataKeyOr_applyFieldInfoAttrs env procInner p.1 p.2

/-- Looking a field's wire key up in the dumped mapping returns the
field's serialized value. -/
theorem dumped_lookup (env : Env) (m : PModel) (procInner : List String)
    (d : List (String × Val))
    (hlen : m.fields.length = d.length)
    (halign : ∀ i (h1 : i < m.fields.length) (h2 : i < d.length),
      (m.fields[i]).1 = (d[i]).1)
    (hnodup : (m.fields.map Prod.fst).Nodup)
    (hwire : (m.fields.map (fun q => q.2.aliasName.getD q.1)).Nodup) :
    ∀ i (h1 : i < m.fields.length) (h2 : i < d.length),
      alookup ((m.fields.map (fun p => (p.1, applyFieldInfoAttrs p.2
          (type_to_marshmallow_field env procInner p.2.annot)))).map
        (fun p => (dataKeyOr p.1 p.2, maSerialize p.2 ((alookup d p.1).getD .vnone))))
        ((m.fields[i]).2.aliasName.getD (m.fields[i]).1) =
      some (maSerialize (type_to_marshmallow_field env procInner ((m.fields[i]).2.annot))
        ((d[i]).2)) := by
  intro i h1 h2
  have hdlook := aligned_alookup_idx m.fields d hlen halign hnodup i h1 h2
  have hWnodup : (((m.fields.map (fun p => (p.1, applyFieldInfoAttrs p.2
      (type_to_marshmallow_field env procInner p.2.annot)))).map
        (fun p => (dataKeyOr p.1 p.2, maSerialize p.2 ((alookup d p.1).getD .vnone)))).map
          Prod.fst).Nodup := by
    rw [dumped_keys]
    exact hwire
  have hself := alookup_map_getElem (m.fields.map (fun p => (p.1, applyFieldInfoAttrs p.2
      (type_to_marshmallow_field env procInner p.2.annot))))
    (fun p => (dataKeyOr p.1 p.2, maSerialize p.2 ((alookup d p.1).getD .vnone)))
    hWnodup i (by simpa using h1)
  simp only [List.getElem_map, dataKeyOr_applyFieldInfoAttrs,
    maSerialize_applyFieldInfoAttrs, hdlook, Option.getD_some] at hself
  exact hself

/-- Engine A validation of one dumped (wire-keyed, serialized) nested
mapping recovers the plain nested value, given the per-field round trip. -/
theorem pydCoerce_model_dumped (env : Env) (n : String) (m : PModel)
    (procInner : List String) (d : List (String × Val))
    (hn : alookup env n = some m)
    (hlen : m.fields.length = d.length)
    (halign : ∀ i (h1 : i < m.fields.length) (h2 : i < d.length),
      (m.fields[i]).1 = (d[i]).1)
    (hnodup : (m.fields.map Prod.fst).Nodup)
    (hwire : (m.fields.map (fun q => q.2.aliasName.getD q.1)).Nodup)
    (hser : ∀ i (h1 : i < m.fields.length) (h2 : i < d.length),
      pydCoerce env ((m.fields[i]).2.annot)
        (maSerialize (type_to_marshmallow_field env procInner ((m.fields[i]).2.annot))
          ((d[i]).2)) = some ((d[i]).2)) :
    pydCoerce env (.modelT n) (.vdict
      ((m.fields.map (fun p => (p.1, applyFieldInfoAttrs p.2
          (type_to_marshmallow_field env procInner p.2.annot)))).map
        (fun p => (dataKeyOr p.1 p.2, maSerialize p.2 ((alookup d p.1).getD .vnone))))) =
      some (.vdict d) := by
  have hlookW := dumped_lookup env m procInner d hlen halign hnodup hwire
  simp only [pydCoerce, hn]
  refine Eq.trans (congrArg (Option.map Val.vdict)
    (mapM_eq_some_idx _ m.fields d hlen ?_)) rfl
  intro i h1 h2
  have hpair : ((m.fields[i]).1, (d[i]).2) = d[i] := Prod.ext (halign i h1 h2) rfl
  split
  · rename_i v1 halo
    rw [hlookW i h1 h2] at halo
    obtain rfl : maSerialize (type_to_marshmallow_field env procInner
        ((m.fields[i]).2.annot)) ((d[i]).2) = v1 := by
      simpa using halo
    rw [hser i h1 h2]
    simp [hpair]
  · rename_i halo
    rw [hlookW i h1 h2] at halo
    simp at halo

/-- Round trip under a stratified (cycle-free) environment, aliases
allowed: serializing a well-typed value through the synthesized schema
field and validating the result with Engine A recovers the value.  `B`
bounds the rank of every model occurring in `t`, and every model on the
recursion-guard stack ranks at least `B`, so the guard never fires. -/
theorem pydCoerce_maSerialize_strat (env : Env) (hE : EnvOK env)
    (rank : String → Nat) (hstrat : stratifiedEnv env rank) :
    ∀ (t : PType) (v : Val), wt env t v = true →
    ∀ (proc : List String) (B : Nat),
      (∀ j, occursModel t j = true → rank j < B) →
      (∀ k ∈ proc, B ≤ rank k) →
      pydCoerce env t (maSerialize (type_to_marshmallow_field env proc t) v) = some v := by
  intro t v
  induction t, v using wt.induct env with
  | case1 =>
    intro _ proc B hT hP
    simp [type_to_marshmallow_field, maSerialize, pydCoerce]
  | case2 n =>
    intro _ proc B hT hP
    simp [type_to_marshmallow_field, maSerialize, pydCoerce]
  | case3 s =>
    intro _ proc B hT hP
    simp [type_to_marshmallow_field, maSerialize, pydCoerce]
  | case4 b =>
    intro _ proc B hT hP
    simp [type_to_marshmallow_field, maSerialize, pydCoerce]
  | case5 vals v =>
    intro hwt proc B hT hP
    have h : vals.any (vbeq v) = true := by simpa [wt] using hwt
    simp only [type_to_marshmallow_field]
    rw [maSerialize_raw_id]
    simp [pydCoerce, h]
  | case6 t1 =>
    intro _ proc B hT hP
    have hser : maSerialize (type_to_marshmallow_field env proc
        (.unionT [t1, .noneT])) .vnone = .vnone := by
      simp [maSerialize]
    rw [hser]
    rcases pydCoerce_vnone env t1 with h | h <;>
      simp [pydCoerce, List.attach, List.attachWith, List.pmap, h, Option.orElse]
  | case7 t1 v hne ih1 =>
    intro hwt proc B hT hP
    simp only [wt, Bool.and_eq_true, Bool.not_eq_true'] at hwt
    have hfilt : [t1, PType.noneT].filter (fun a => !a.isNoneT) = [t1] := by
      simp only [List.filter_cons, List.filter_nil, hwt.1, PType.isNoneT]
      simp
      exact hwt.1
    have hT1 : ∀ j, occursModel t1 j = true → rank j < B := by
      intro j hj
      apply hT j
      simp only [occursModel, List.any_eq_true]
      exact ⟨⟨t1, by simp⟩, List.mem_attach _ _, hj⟩
    simp only [type_to_marshmallow_field]
    split
    · rename_i t1' hft
      rw [hfilt] at hft
      obtain rfl : t1 = t1' := by simpa using hft
      rw [maSerialize_mapAttrs]
      have hc := ih1 hwt.2 proc B hT1 hP
      simp [pydCoerce, List.attach, List.attachWith, List.pmap, hc, Option.orElse]
    · rename_i hno
      exact absurd hfilt (hno t1)
  | case8 n d m hn ih1 =>
    intro hwt proc B hT hP
    obtain ⟨hnodup, hwire, hcomp⟩ := hE (n, m) (alookup_mem hn)
    have hcomp' : m.computed = [] := hcomp
    have hnodup' : (m.fields.map Prod.fst).Nodup := hnodup
    have hwire' : (m.fields.map (fun q => q.2.aliasName.getD q.1)).Nodup := hwire
    simp only [wt, hn, Bool.and_eq_true, beq_iff_eq, List.all_eq_true] at hwt
    obtain ⟨hlen, hall⟩ := hwt
    have hall2 : ∀ (x : (String × PFieldInfo) × (String × Val)), x ∈ m.fields.zip d →
        x.1.1 = x.2.1 ∧ wt env x.1.2.annot x.2.2 = true := by
      intro x hx
      have := hall ⟨x, hx⟩ (List.mem_attach _ _)
      simpa using this
    have hzmem : ∀ i (h1 : i < m.fields.length) (h2 : i < d.length),
        (m.fields[i], d[i]) ∈ m.fields.zip d := by
      intro i h1 h2
      have hi : i < (m.fields.zip d).length := by
        simp only [List.length_zip]
        omega
      have := List.getElem_mem hi
      simpa [List.getElem_zip] using this
    have halignidx : ∀ i (h1 : i < m.fields.length) (h2 : i < d.length),
        (m.fields[i]).1 = (d[i]).1 := by
      intro i h1 h2
      exact (hall2 _ (hzmem i h1 h2)).1
    have hrn : rank n < B := hT n (by simp [occursModel])
    have hPn : ∀ k ∈ n :: proc, rank n ≤ rank k := by
      intro k hk
      rcases List.mem_cons.mp hk with rfl | hk2
      · exact le_refl _
      · exact le_trans (le_of_lt hrn) (hP k hk2)
    have hstratm := hstrat (n, m) (alookup_mem hn)
    have hser : ∀ i (h1 : i < m.fields.length) (h2 : i < d.length),
        pydCoerce env ((m.fields[i]).2.annot)
          (maSerialize (type_to_marshmallow_field env (n :: proc)
            ((m.fields[i]).2.annot)) ((d[i]).2)) = some ((d[i]).2) := by
      intro i h1 h2
      exact ih1 ⟨(m.fields[i], d[i]), hzmem i h1 h2⟩ (hall2 _ (hzmem i h1 h2)).2
        (n :: proc) (rank n)
        (fun j hj => hstratm _ (List.getElem_mem h1) j hj) hPn
    simp only [type_to_marshmallow_field]
    split
    · rename_i hin
      exfalso
      have := hP n hin
      omega
    · split
      · rename_i m' hl'
        rw [hn] at hl'
        obtain rfl : m = m' := by simpa using hl'
        simp only [hcomp', List.map_nil, List.append_nil]
        simp only [maSerialize]
        simp only [List.attach, List.attachWith, List.map_pmap, List.pmap_eq_map]
        exact pydCoerce_model_dumped env n m (n :: proc) d hn hlen halignidx
          hnodup' hwire' hser
      · rename_i hl'
        rw [hn] at hl'
        cases hl'
  | case9 n d hnone =>
    intro hwt
    simp [wt, hnone] at hwt
  | case10 t1 xs ih1 =>
    intro hwt proc B hT hP
    simp only [wt, List.all_eq_true] at hwt
    have hT1 : ∀ j, occursModel t1 j = true → rank j < B := by
      intro j hj
      apply hT j
      simpa [occursModel] using hj
    have hpt : ∀ x ∈ xs, pydCoerce env t1
        (maSerialize (type_to_marshmallow_field env proc t1) x) = some x := by
      intro x hx
      exact ih1 ⟨x, hx⟩ (by simpa using hwt ⟨x, hx⟩ (List.mem_attach _ _)) proc B hT1 hP
    simp only [type_to_marshmallow_field]
    simp only [maSerialize]
    simp only [List.attach, List.attachWith, List.map_pmap, List.pmap_eq_map]
    simp only [pydCoerce]
    refine Eq.trans (congrArg (Option.map Val.vlist)
      (mapM_eq_some_idx _ (xs.map (maSerialize
        (type_to_marshmallow_field env proc t1))).attach xs (by simp) ?_)) rfl
    intro i h1 h2
    have hm : xs[i] ∈ xs := List.getElem_mem h2
    simpa using hpt xs[i] hm
  | case11 xs =>
    intro _ proc B hT hP
    simp only [type_to_marshmallow_field]
    simp only [maSerialize]
    simp only [List.attach, List.attachWith, List.map_pmap, List.pmap_eq_map]
    rw [map_id_of_mem xs _ (fun x _ => maSerialize_raw_id _ x)]
    simp only [pydCoerce]
    refine Eq.trans (congrArg (Option.map Val.vlist)
      (mapM_eq_some_idx _ xs.attach xs (by simp) ?_)) rfl
    intro i h1 h2
    simp [pydCoerce]
  | case12 entries =>
    intro _ proc B hT hP
    simp only [type_to_marshmallow_field]
    simp only [maSerialize]
    simp only [List.attach, List.attachWith, List.map_pmap, List.pmap_eq_map]
    rw [map_id_of_mem entries _ (fun x _ => by rw [maSerialize_raw_id])]
    simp [pydCoerce]
  | case13 kt vt d ih1 =>
    intro hwt proc B hT hP
    simp only [wt, Bool.and_eq_true, List.all_eq_true] at hwt
    obtain ⟨hkt, hall⟩ := hwt
    have hkt' : kt = .strT := by
      cases kt <;> simp [PType.isStrT] at hkt ⊢
    subst hkt'
    have hTv : ∀ j, occursModel vt j = true → rank j < B := by
      intro j hj
      apply hT j
      simp [occursModel, hj]
    have hpt : ∀ x ∈ d, pydCoerce env vt
        (maSerialize (type_to_marshmallow_field env proc vt) x.2) = some x.2 := by
      intro x hx
      exact ih1 ⟨x, hx⟩ (by simpa using hall ⟨x, hx⟩ (List.mem_attach _ _)) proc B hTv hP
    simp only [type_to_marshmallow_field]
    simp only [maSerialize]
    simp only [List.attach, List.attachWith, List.map_pmap, List.pmap_eq_map]
    simp only [pydCoerce]
    have hlenA : ((d.map (fun x => (x.1, maSerialize
        (type_to_marshmallow_field env proc vt) x.2))).attach).length = d.length := by
      simp
    refine Eq.trans (congrArg (Option.map Val.vdict)
      (mapM_eq_some_idx _ _ d hlenA ?_)) rfl
    intro i h1 h2
    have hm : d[i] ∈ d := List.getElem_mem h2
    have := hpt d[i] hm
    simp [pydCoerce, this, Option.bind]
  | case14 xs =>
    intro _ proc B hT hP
    simp only [type_to_marshmallow_field]
    simp only [maSerialize]
    simp only [List.attach, List.attachWith, List.map_pmap, List.pmap_eq_map]
    rw [map_id_of_mem xs _ (fun x _ => maSerialize_raw_id _ x)]
    simp [pydCoerce]
  | case15 a rest xs ih1 =>
    intro hwt proc B hT hP
    simp only [wt, Bool.and_eq_true, beq_iff_eq, List.all_eq_true] at hwt
    obtain ⟨hlen, hall⟩ := hwt
    have hlen' : rest.length + 1 = xs.length := by simpa using hlen
    have hzmem : ∀ i (h1 : i < (a :: rest).length) (h2 : i < xs.length),
        ((a :: rest)[i], xs[i]) ∈ (a :: rest).zip xs := by
      intro i h1 h2
      have hi : i < ((a :: rest).zip xs).length := by
        simp only [List.length_zip, List.length_cons]
        omega
      have := List.getElem_mem hi
      simpa [List.getElem_zip] using this
    have hTi : ∀ i (h1 : i < (a :: rest).length),
        ∀ j, occursModel (a :: rest)[i] j = true → rank j < B := by
      intro i h1 j hj
      apply hT j
      simp only [occursModel, List.any_eq_true]
      exact ⟨⟨(a :: rest)[i], List.getElem_mem h1⟩, List.mem_attach _ _, hj⟩
    have hpt : ∀ i (h1 : i < (a :: rest).length) (h2 : i < xs.length),
        pydCoerce env (a :: rest)[i]
          (maSerialize (type_to_marshmallow_field env proc (a :: rest)[i]) xs[i]) =
          some xs[i] := by
      intro i h1 h2
      have hw := hall ⟨((a :: rest)[i], xs[i]), hzmem i h1 h2⟩ (List.mem_attach _ _)
      exact ih1 ⟨((a :: rest)[i], xs[i]), hzmem i h1 h2⟩ (by simpa using hw)
        proc B (hTi i h1) hP
    simp only [type_to_marshmallow_field]
    simp only [maSerialize]
    simp only [List.attach, List.attachWith, List.map_pmap, List.pmap_eq_map]
    simp only [pydCoerce]
    have hys : (a :: rest).length = (List.map (fun a => maSerialize a.1 a.2)
        ((List.map (type_to_marshmallow_field env proc) (a :: rest)).zip xs)).length := by
      simp only [List.length_map, List.length_zip, List.length_cons]
      omega
    rw [if_pos hys]
    have hlenB : (((a :: rest).zip
        (List.map (fun a => maSerialize a.1 a.2)
          ((List.map (type_to_marshmallow_field env proc) (a :: rest)).zip xs))).attach).length =
        xs.length := by
      simp only [List.length_attach, List.length_zip, List.length_map, List.length_cons]
      omega
    refine Eq.trans (congrArg (Option.map Val.vlist)
      (mapM_eq_some_idx _ _ xs hlenB ?_)) rfl
    intro i h1 h2
    have hi1 : i < (a :: rest).length := by
      simp only [List.length_attach, List.length_zip, List.length_map,
        List.length_cons] at h1
      simp only [List.length_cons]
      omega
    have hi2 : i < ((List.map (type_to_marshmallow_field env proc) (a :: rest)).zip xs).length := by
      simp only [List.length_zip, List.length_map, List.length_cons]
      omega
    simp only [List.getElem_attach, List.getElem_zip, List.getElem_map]
    exact hpt i hi1 h2
  | case16 s =>
    intro _ proc B hT hP
    simp [type_to_marshmallow_field, maSerialize, pydCoerce]
  | case17 s =>
    intro _ proc B hT hP
    simp [type_to_marshmallow_field, maSerialize, pydCoerce]
  | case18 s =>
    intro _ proc B hT hP
    simp [type_to_marshmallow_field, maSerialize, pydCoerce]
  | case19 v =>
    intro _ proc B hT hP
    simp only [type_to_marshmallow_field]
    rw [maSerialize_raw_id]
    simp [pydCoerce]
  | case20 t1 xs ih1 =>
    intro hwt proc B hT hP
    simp only [wt, List.all_eq_true] at hwt
    have hT1 : ∀ j, occursModel t1 j = true → rank j < B := by
      intro j hj
      apply hT j
      simpa [occursModel] using hj
    have hpt : ∀ x ∈ xs, pydCoerce env t1
        (maSerialize (type_to_marshmallow_field env proc t1) x) = some x := by
      intro x hx
      exact ih1 ⟨x, hx⟩ (by simpa using hwt ⟨x, hx⟩ (List.mem_attach _ _)) proc B hT1 hP
    simp only [type_to_marshmallow_field]
    simp only [maSerialize]
    simp only [List.attach, List.attachWith, List.map_pmap, List.pmap_eq_map]
    simp only [pydCoerce]
    refine Eq.trans (congrArg (Option.map Val.vlist)
      (mapM_eq_some_idx _ (xs.map (maSerialize
        (type_to_marshmallow_field env proc t1))).attach xs (by simp) ?_)) rfl
    intro i h1 h2
    have hm : xs[i] ∈ xs := List.getElem_mem h2
    simpa using hpt xs[i] hm
  | case21 xs =>
    intro _ proc B hT hP
    simp only [type_to_marshmallow_field]
    simp only [maSerialize]
    simp only [List.attach, List.attachWith, List.map_pmap, List.pmap_eq_map]
    rw [map_id_of_mem xs _ (fun x _ => maSerialize_raw_id _ x)]
    simp only [pydCoerce]
    refine Eq.trans (congrArg (Option.map Val.vlist)
      (mapM_eq_some_idx _ xs.attach xs (by simp) ?_)) rfl
    intro i h1 h2
    simp [pydCoerce]
  | case22 t v =>
    intro hwt
    rw [wt.eq_def] at hwt
    split at hwt <;> simp_all

/-- Engine A validation of the full dumped mapping recovers the instance,
given the per-field round trip (serialize through the synthesized field,
then coerce). -/
theorem validateModel_dump (env : Env) (hE : EnvOK env) (n : String) (m : PModel)
    (inst : List (String × Val)) (hn : alookup env n = some m)
    (hwt : wt env (.modelT n) (.vdict inst) = true)
    (hser : ∀ i (h1 : i < m.fields.length) (h2 : i < inst.length),
      pydCoerce env ((m.fields[i]).2.annot)
        (maSerialize (type_to_marshmallow_field env [] ((m.fields[i]).2.annot))
          ((inst[i]).2)) = some ((inst[i]).2)) :
    validateModel env m (maDumpFields (convert_model_fields env m none none true) inst) =
      .ok inst := by
  obtain ⟨hnodup, hwire, hcomp⟩ := hE (n, m) (alookup_mem hn)
  have hcomp' : m.computed = [] := hcomp
  have hnodup' : (m.fields.map Prod.fst).Nodup := hnodup
  have hwire' : (m.fields.map (fun q => q.2.aliasName.getD q.1)).Nodup := hwire
  simp only [wt, hn, Bool.and_eq_true, beq_iff_eq, List.all_eq_true] at hwt
  obtain ⟨hlen, hall⟩ := hwt
  have hall2 : ∀ (x : (String × PFieldInfo) × (String × Val)), x ∈ m.fields.zip inst →
      x.1.1 = x.2.1 ∧ wt env x.1.2.annot x.2.2 = true := by
    intro x hx
    have := hall ⟨x, hx⟩ (List.mem_attach _ _)
    simpa using this
  have hzmem : ∀ i (h1 : i < m.fields.length) (h2 : i < inst.length),
      (m.fields[i], inst[i]) ∈ m.fields.zip inst := by
    intro i h1 h2
    have hi : i < (m.fields.zip inst).length := by
      simp only [List.length_zip]
      omega
    have := List.getElem_mem hi
    simpa [List.getElem_zip] using this
  have halignidx : ∀ i (h1 : i < m.fields.length) (h2 : i < inst.length),
      (m.fields[i]).1 = (inst[i]).1 := by
    intro i h1 h2
    exact (hall2 _ (hzmem i h1 h2)).1
  have hreg : convert_model_fields env m none none true =
      m.fields.map (fun p => (p.1, applyFieldInfoAttrs p.2
        (type_to_marshmallow_field env [] p.2.annot))) := by
    simp only [convert_model_fields, hcomp', List.filterMap_nil, if_pos]
    rw [filterMap_always_some m.fields
      (fun p => (p.1, convert_pydantic_field env p.2)) _ (fun p _ => by simp)]
    simp [convert_pydantic_field]
  rw [hreg]
  simp only [maDumpFields]
  have hlookW := dumped_lookup env m [] inst hlen halignidx hnodup' hwire'
  have hfold := validateModel_fold_id env
    ((m.fields.map (fun p => (p.1, applyFieldInfoAttrs p.2
        (type_to_marshmallow_field env [] p.2.annot)))).map
      (fun p => (dataKeyOr p.1 p.2, maSerialize p.2 ((alookup inst p.1).getD .vnone))))
    m.fields inst [] hlen (fun i h1 h2 =>
      ⟨halignidx i h1 h2,
       ⟨maSerialize (type_to_marshmallow_field env [] ((m.fields[i]).2.annot))
          ((inst[i]).2), hlookW i h1 h2, hser i h1 h2⟩⟩)
  simp only [validateModel, hfold]
  simp

/-- C8: round-trip.  For a bound model without computed fields, with
distinct field names and wire keys, loading the mapping `dump` produces
(all exclusion flags off) through `_do_load` (strict unknown policy,
Engine A validation, `return_instance=True`) succeeds and reconstructs an
instance with every field value equal to the original — for every field
annotation and value inside the well-typed value grammar (scalars,
optionals, lists, sets, string-keyed dicts, tuples, and nested models).
Aliases are covered in the stratified (cycle-free) regime, where dump
writes each field under its `data_key` and Engine A reads it back by
alias; the alias-free regime additionally covers self-referential models,
whose guard-degraded `Raw` fields dump name-keyed, matching what the
engine then looks up.  (A self-referential model with an aliased field
genuinely fails to round-trip in the source: the degraded `Raw` dump is
name-keyed but the engine validates that nested mapping by alias.) -/
theorem C8_round_trip (env : Env) (n : String) (m : PModel)
    (inst : List (String × Val))
    (hE : EnvOK env) (hn : alookup env n = some m)
    (hwt : wt env (.modelT n) (.vdict inst) = true)
    (hregime : aliasFreeEnv env ∨ ∃ rank, stratifiedEnv env rank) :
    do_load_single (plainCfg m .uraise true) (validateModel env)
      (dump_single (convert_model_fields env m none none true) m inst
        (m.fields.map Prod.fst) [] true false false false) = .ok (.instR inst) := by
  obtain ⟨hnodup, hwire, hcomp⟩ := hE (n, m) (alookup_mem hn)
  have hcomp' : m.computed = [] := hcomp
  have hwt2 := hwt
  simp only [wt, hn, Bool.and_eq_true, beq_iff_eq, List.all_eq_true] at hwt2
  obtain ⟨hlen, hall⟩ := hwt2
  have hall2 : ∀ (x : (String × PFieldInfo) × (String × Val)), x ∈ m.fields.zip inst →
      x.1.1 = x.2.1 ∧ wt env x.1.2.annot x.2.2 = true := by
    intro x hx
    have := hall ⟨x, hx⟩ (List.mem_attach _ _)
    simpa using this
  have hzmem : ∀ i (h1 : i < m.fields.length) (h2 : i < inst.length),
      (m.fields[i], inst[i]) ∈ m.fields.zip inst := by
    intro i h1 h2
    have hi : i < (m.fields.zip inst).length := by
      simp only [List.length_zip]
      omega
    have := List.getElem_mem hi
    simpa [List.getElem_zip] using this
  have hser : ∀ i (h1 : i < m.fields.length) (h2 : i < inst.length),
      pydCoerce env ((m.fields[i]).2.annot)
        (maSerialize (type_to_marshmallow_field env [] ((m.fields[i]).2.annot))
          ((inst[i]).2)) = some ((inst[i]).2) := by
    intro i h1 h2
    rcases hregime with hAF | ⟨rank, hstrat⟩
    · rw [maSerialize_ttmf_id env hE hAF _ _ ((hall2 _ (hzmem i h1 h2)).2) []]
      exact wt_pydCoerce_id env hE hAF _ _ ((hall2 _ (hzmem i h1 h2)).2)
    · exact pydCoerce_maSerialize_strat env hE rank hstrat _ _
        ((hall2 _ (hzmem i h1 h2)).2) [] (rank n)
        (fun j hj => hstrat (n, m) (alookup_mem hn) _ (List.getElem_mem h1) j hj)
        (fun k hk => absurd hk (List.not_mem_nil k))
  have hreg : convert_model_fields env m none none true =
      m.fields.map (fun p => (p.1, applyFieldInfoAttrs p.2
        (type_to_marshmallow_field env [] p.2.annot))) := by
    simp only [convert_model_fields, hcomp', List.filterMap_nil, if_pos]
    rw [filterMap_always_some m.fields
      (fun p => (p.1, convert_pydantic_field env p.2)) _ (fun p _ => by simp)]
    simp [convert_pydantic_field]
  have hdump : dump_single (convert_model_fields env m none none true) m inst
      (m.fields.map Prod.fst) [] true false false false =
      maDumpFields (convert_model_fields env m none none true) inst := by
    simp [dump_single, maDumpFields]
  rw [hdump]
  have hVM := validateModel_dump env hE n m inst hn hwt hser
  have hkeys : dkeys (maDumpFields (convert_model_fields env m none none true) inst) =
      m.fields.map (fun q => q.2.aliasName.getD q.1) := by
    rw [hreg]
    simp only [maDumpFields, dkeys]
    exact dumped_keys env m [] inst
  have hnex : ¬∃ x ∈ dkeys (maDumpFields (convert_model_fields env m none none true) inst),
      x ∉ get_model_field_names_with_aliases m := by
    rintro ⟨x, hx, hnot⟩
    rw [hkeys] at hx
    obtain ⟨q, hq, hqx⟩ := List.mem_map.mp hx
    apply hnot
    simp only [get_model_field_names_with_aliases, List.mem_append]
    rcases hal : q.2.aliasName with _ | al
    · left
      refine List.mem_map.mpr ⟨q, hq, ?_⟩
      rw [← hqx, hal]
      rfl
    · right
      refine List.mem_filterMap.mpr ⟨q, hq, ?_⟩
      rw [hal, ← hqx, hal]
      rfl
  simp [do_load_single, plainCfg, post_validate_steps, run_validators, hVM, hnex]

def mC8inner : PModel := ⟨[("x", { annot := .intT, aliasName := some "ex" })], []⟩

def mC8 : PModel :=
  ⟨[("a", { annot := .intT, aliasName := some "A" }),
    ("s", { annot := .setT (some .intT) }),
    ("inner", { annot := .modelT "I" })], []⟩

def envC8 : Env := [("M", mC8), ("I", mC8inner)]

def instC8 : List (String × Val) :=
  [("a", .vint 3), ("s", .vlist [.vint 1, .vint 2]), ("inner", .vdict [("x", .vint 7)])]

def rankC8 : String → Nat := fun j => if j = "M" then 1 else 0

theorem C8_round_trip_witness :
    EnvOK envC8 ∧ alookup envC8 "M" = some mC8 ∧
    wt envC8 (.modelT "M") (.vdict instC8) = true ∧
    (aliasFreeEnv envC8 ∨ ∃ rank, stratifiedEnv envC8 rank) ∧
    do_load_single (plainCfg mC8 .uraise true) (validateModel envC8)
      (dump_single (convert_model_fields envC8 mC8 none none true) mC8 instC8
        (mC8.fields.map Prod.fst) [] true false false false) = .ok (.instR instC8) := by
  have hE : EnvOK envC8 := by
    intro p hp
    simp only [envC8, List.mem_cons, List.not_mem_nil, or_false] at hp
    rcases hp with rfl | rfl <;> refine ⟨?_, ?_, rfl⟩ <;> simp [mC8, mC8inner]
  have hn : alookup envC8 "M" = some mC8 := by simp [alookup, envC8]
  have hwt : wt envC8 (.modelT "M") (.vdict instC8) = true := by
    simp [wt, envC8, mC8, mC8inner, instC8, alookup, List.attach, List.attachWith,
      List.pmap, PType.isNoneT]
  have hreg : aliasFreeEnv envC8 ∨ ∃ rank, stratifiedEnv envC8 rank := by
    refine Or.inr ⟨rankC8, ?_⟩
    intro p hp q hq j hj
    simp only [envC8, List.mem_cons, List.not_mem_nil, or_false] at hp
    rcases hp with rfl | rfl
    · simp only [mC8, List.mem_cons, List.not_mem_nil, or_false] at hq
      rcases hq with rfl | rfl | rfl
      · simp [occursModel] at hj
      · simp [occursModel] at hj
      · simp only [occursModel, beq_iff_eq] at hj
        subst hj
        simp [rankC8]
    · simp only [mC8inner, List.mem_cons, List.not_mem_nil, or_false] at hq
      rcases hq with rfl
      simp [occursModel] at hj
  exact ⟨hE, hn, hwt, hreg, C8_round_trip envC8 "M" mC8 instC8 hE hn hwt hreg⟩
